import Mathlib

/-!
Verification of the shardingite cross-shard execution engine.

The definitions below are a shallow embedding of the Rust sources
(`src/lib.rs`, `src/parser.rs`, `src/rewriter.rs`, `src/router.rs`,
`src/sql_daemon.rs`): machine integers become `Nat`/`Int` (with explicit
`% 2^w` where the code truncates), fallible code returns
`Except String _` carrying the source's error message strings, and the
channel-based per-shard row streams become explicit per-shard row lists
threaded through the state.
-/

namespace Shardingite

/-! ## Values (sql_daemon.rs) -/

/-- `SqlParam` from sql_daemon.rs: tagged input binding values. -/
inductive SqlParam
  | string (s : String)
  | i64 (n : Int)
  | u32 (n : Nat)
  | u16 (n : Nat)
  deriving DecidableEq, Repr

/-- `SqlValue` from sql_daemon.rs: tagged output cell values.  The `real`
payload is carried as the raw bit pattern of the double; no claim inspects
real-valued cells. -/
inductive SqlValue
  | null
  | integer (n : Int)
  | real (bits : Nat)
  | text (bytes : List Nat)
  | blob (bytes : List Nat)
  deriving DecidableEq, Repr

/-- A materialized row: the vector of cells a worker sends back. -/
abbrev SqlRow := List SqlValue

/-! ## sqlparser AST subset

The subset of `sqlparser::ast` that the router, rewriter and parser adapter
inspect. -/

/-- `sqlparser::ast::Value` subset: numeric literals keep their source
string (`Value::Number(String, _)`); every other literal form is collapsed
into `otherValue` (the code rejects them uniformly). -/
inductive Value
  | number (s : String)
  | otherValue
  deriving DecidableEq, Repr

/-- `sqlparser::ast::FunctionArg`, flattened to the discrimination
`parser.rs` performs on it: `Unnamed(Expr::Wildcard)` vs an unnamed
argument with any other expression vs a named argument.  The payload of
the latter two is never inspected by the code. -/
inductive FuncArg
  | unnamedWildcard
  | unnamedOther
  | namedArg
  deriving DecidableEq, Repr

/-- `sqlparser::ast::Expr` subset. -/
inductive Expr
  | identifier (value : String)
  | value (v : Value)
  | wildcard
  | function (name : String) (args : List FuncArg)
  | otherExpr
  deriving DecidableEq, Repr

/-- `sqlparser::ast::SelectItem` subset: unnamed projection expressions,
with every aliased/qualified/wildcard item collapsed into `otherItem`. -/
inductive SelectItem
  | unnamedExpr (e : Expr)
  | otherItem
  deriving DecidableEq, Repr

/-- `sqlparser::ast::Select` subset: the projection list (inspected by the
parser adapter) and the FROM table names (needed to print the statement). -/
structure Select where
  projection : List SelectItem
  fromTables : List String
  deriving DecidableEq, Repr

/-- `sqlparser::ast::OrderByExpr`: expression plus optional ASC/DESC. -/
structure OrderByExpr where
  expr : Expr
  asc : Option Bool
  deriving DecidableEq, Repr

/-- `sqlparser::ast::SetExpr` subset. -/
inductive SetExpr
  | select (s : Select)
  | values (vs : List (List Expr))
  | otherSetExpr
  deriving DecidableEq, Repr

/-- `sqlparser::ast::Query`: body with order-by, limit and offset.  The
`offset` field keeps only the offset value expression
(`sqlparser::ast::Offset { value, .. }`). -/
structure QueryAst where
  body : SetExpr
  order_by : List OrderByExpr
  limit : Option Expr
  offset : Option Expr
  deriving DecidableEq, Repr

/-- `sqlparser::ast::Statement` subset: queries, inserts (table name path,
column list, source query whose body may be `Values`), and everything else
collapsed into `otherStmt`. -/
inductive Statement
  | query (q : QueryAst)
  | insert (table_name : List String) (columns : List String) (source : QueryAst)
  | otherStmt
  deriving DecidableEq, Repr

/-! ## Parser adapter (parser.rs) -/

/-- `Limit` from parser.rs (`limit: u32, offset: u32`). -/
structure Limit where
  limit : Nat
  offset : Nat
  deriving DecidableEq, Repr

/-- `OrderBy` from parser.rs (`column_index: u8, is_asc: bool`). -/
structure OrderBy where
  column_index : Nat
  is_asc : Bool
  deriving DecidableEq, Repr

/-- `Aggregate` from parser.rs. -/
inductive Aggregate
  | count (col : String)
  deriving DecidableEq, Repr

/-- `Query` from parser.rs: the extracted query plan. -/
structure Query where
  limit : Option Limit
  order_by : Option OrderBy
  aggregate : Option Aggregate
  deriving DecidableEq, Repr

/-- Rust `str::starts_with` on the underlying character lists. -/
def listStartsWith : List Char → List Char → Bool
  | [], _ => true
  | _ :: _, [] => false
  | p :: ps, c :: cs => p = c && listStartsWith ps cs

/-- Rust `str::starts_with(pre)` (the string functions are modelled over
`String.data` so they compute). -/
def strStartsWith (s pre : String) : Bool :=
  listStartsWith pre.data s.data

/-- Rust `str::to_lowercase` (ASCII suffices for the function names the
parser compares against). -/
def strToLower (s : String) : String :=
  ⟨s.data.map Char.toLower⟩

/-- Numeric value of a digit string.  sqlparser numeric literals are
digit/point sequences, so only all-digit strings denote integers. -/
def digitsToNat (s : String) : Nat :=
  s.data.foldl (fun acc c => acc * 10 + (c.toNat - 48)) 0

/-- Model of Rust `str::parse::<u32>` on sqlparser numeric-literal strings:
succeeds exactly on nonempty all-digit strings whose value fits in 32 bits.
(The two Rust failure modes, bad digit and out of range, are conflated;
no code path distinguishes them.) -/
def parseU32 (s : String) : Option Nat :=
  if s.data ≠ [] ∧ s.data.all Char.isDigit ∧ digitsToNat s < 2 ^ 32 then
    some (digitsToNat s)
  else none

/-- Model of Rust `str::parse::<i64>` on sqlparser numeric-literal strings:
succeeds exactly on nonempty all-digit strings whose value fits in a signed
64-bit integer. -/
def parseI64 (s : String) : Option Int :=
  if s.data ≠ [] ∧ s.data.all Char.isDigit ∧ digitsToNat s < 2 ^ 63 then
    some (Int.ofNat (digitsToNat s))
  else none

/-- Loop body of `Parser::find_column_index_in_select` (parser.rs:164):
walk the projection with the running index; a matching bare identifier
returns its index cast `as u8` (truncation modulo 256); any projection
item that is not an unnamed bare identifier aborts the scan. -/
def findColumnIndexAux (column : String) : Nat → List SelectItem → Except String Nat
  | _, [] => .error ("Column '" ++ column ++ "' not found in select")
  | index, item :: rest =>
    match item with
    | SelectItem.unnamedExpr e =>
      match e with
      | Expr.identifier id =>
        if id = column then .ok (index % 256)
        else findColumnIndexAux column (index + 1) rest
      | _ => .error "Currently only supports the unnamed id expr in select"
    | _ => .error "Currently only supports the unnamed expr in select"

/-- `Parser::find_column_index_in_select` (parser.rs:164). -/
def find_column_index_in_select (select : Select) (column : String) : Except String Nat :=
  findColumnIndexAux column 0 select.projection

/-- Loop body of `Parser::get_aggregate` (parser.rs:118): scan the
projection items; a `count` call must be the only projection item and its
first argument must be `*`; `json_extract` calls and non-function items
are skipped; any other function is rejected. -/
def getAggregateAux (projLen : Nat) : List SelectItem → Except String (Option Aggregate)
  | [] => .ok none
  | prj :: rest =>
    match prj with
    | SelectItem.unnamedExpr expr =>
      match expr with
      | Expr.function name args =>
        match strToLower name with
        | "count" =>
          if projLen > 1 then
            .error "Currently only supports count function alone in query function"
          else
            match args[0]? with
            | some FuncArg.unnamedWildcard => .ok (some (Aggregate.count "*"))
            | _ => .error "Currently only supports * with count function in query function"
        | "json_extract" => getAggregateAux projLen rest
        | _ =>
          .error "Currently only supports ['count', 'json_extract'] filed in query function"
      | _ => getAggregateAux projLen rest
    | _ => .error "Currently only supports unname expr in query"

/-- `Parser::get_aggregate` (parser.rs:118). -/
def get_aggregate (query : QueryAst) : Except String (Option Aggregate) :=
  match query.body with
  | SetExpr.select sel => getAggregateAux sel.projection.length sel.projection
  | _ => .error "Currently only supports select query"

/-- The order-by extraction block of `Parser::get_query_from_ast`
(parser.rs:49-74): use only the first ordering term; its expression must
be a bare identifier; the body must be a plain SELECT; the column index is
located in the projection. -/
def extractOrderBy (query : QueryAst) : Except String (Option OrderBy) :=
  match query.order_by[0]? with
  | some expr =>
    match (match expr.expr with
           | Expr.identifier ident => Except.ok ident
           | _ => Except.error "Expect ident in order expr") with
    | .error e => .error e
    | .ok column_name =>
      match (match query.body with
             | SetExpr.select select => find_column_index_in_select select column_name
             | _ =>
               .error "Currently only supports the combination of order by and select") with
      | .error e => .error e
      | .ok column_index =>
        .ok (some { column_index := column_index, is_asc := expr.asc.getD true })
  | none => .ok none

/-- The limit-number block of `Parser::get_query_from_ast`
(parser.rs:76-85): the limit must be a numeric literal parsing as `u32`. -/
def extractLimitNumber (query : QueryAst) : Except String (Option Nat) :=
  match query.limit with
  | some e =>
    match e with
    | Expr.value v =>
      match v with
      | Value.number n =>
        match parseU32 n with
        | some k => .ok (some k)
        | none => .error "invalid digit found in string"
      | _ => .error "Expect number value in limit expr"
    | _ => .error "Expect value in limit expr"
  | none => .ok none

/-- The offset-number block of `Parser::get_query_from_ast`
(parser.rs:87-96). -/
def extractOffsetNumber (query : QueryAst) : Except String (Option Nat) :=
  match query.offset with
  | some value =>
    match value with
    | Expr.value v =>
      match v with
      | Value.number n =>
        match parseU32 n with
        | some k => .ok (some k)
        | none => .error "invalid digit found in string"
      | _ => .error "Expect number value in offset expr"
    | _ => .error "Expect value in offset expr"
  | none => .ok none

/-- `Parser::get_query_from_ast` (parser.rs:47): extract the query plan
(order-by column index and direction, limit/offset, aggregate) from a
parsed statement. -/
def get_query_from_ast (ast : Statement) : Except String Query :=
  match ast with
  | Statement.query query =>
    match extractOrderBy query with
    | .error e => .error e
    | .ok order_by =>
      match extractLimitNumber query with
      | .error e => .error e
      | .ok limit_number =>
        match extractOffsetNumber query with
        | .error e => .error e
        | .ok offset_number =>
          let limit : Option Limit :=
            match limit_number with
            | some l => some { limit := l, offset := offset_number.getD 0 }
            | none => none
          match get_aggregate query with
          | .error e => .error e
          | .ok aggregate =>
            .ok { limit := limit, order_by := order_by, aggregate := aggregate }
  | _ => .error "Not a query"

/-! ## Router (router.rs) -/

/-- The routing-relevant part of `ShardingIteConfig` (lib.rs:26): the shard
count, the sharded table and column names, and the user sharding function
(which may fail, `Box<dyn Fn(&SqlParam) -> Result<u32>>`). -/
structure ShardingConfig where
  sharding_count : Nat
  sharding_table : String
  sharding_column : String
  sharding_index : SqlParam → Except String Nat

/-- `Router::get_indexes_with_params` (router.rs:7): map a parsed statement
and its bound parameters to the list of shard indices to address. -/
def get_indexes_with_params (config : ShardingConfig) (ast : Statement)
    (params : List SqlParam) : Except String (List Nat) :=
  match ast with
  | Statement.insert table_name columns source =>
    -- Check table name
    if table_name.head? ≠ some config.sharding_table then
      .ok (List.range config.sharding_count)
    else
      match columns.findIdx? (fun s => s = config.sharding_column) with
      | some index =>
        match source.body with
        | SetExpr.values values =>
          match values with
          | [row] =>
            match row[index]? with
            | some sharding_column_value =>
              match sharding_column_value with
              | Expr.identifier id =>
                if strStartsWith id "?" then
                  match params[index]? with
                  | some param => do
                    let r ← config.sharding_index param
                    .ok [r]
                  | none => .error "Sharding param not found"
                else .error ("Ident must starts with ?, received " ++ id)
              | Expr.value v =>
                match v with
                | Value.number n =>
                  match parseI64 n with
                  | some k => do
                    let r ← config.sharding_index (SqlParam.i64 k)
                    .ok [r]
                  | none => .error "Parse number error in sql router"
                | _ => .error "Expect number type of sharding column in VALUES"
              | _ => .error "Expect id or value, received other expr"
            | none => .ok (List.range config.sharding_count)
          | _ => .error "Values lenght is not 1"
        | _ => .ok (List.range config.sharding_count)
      | none => .ok (List.range config.sharding_count)
  | _ => .ok (List.range config.sharding_count)

/-! ## SQL text as token lists

SQL strings are modelled at the token level (sqlparser tokenizes before
parsing, and `Statement::to_string` emits a token-determined rendering).
`printStmt` models `Statement`'s `Display` restricted to the embedded
fragment; `parseStmt` models `Parser::parse` (parser.rs:36) on the
fragment: single `SELECT ident-list FROM table [ORDER BY c [ASC|DESC]]
[LIMIT n] [OFFSET n]` statements and single-row
`INSERT INTO t (cols) VALUES (exprs)` statements. -/

/-- SQL tokens. -/
inductive Tok
  | kwSELECT | kwFROM | kwORDER | kwBY | kwASC | kwDESC | kwLIMIT | kwOFFSET
  | kwINSERT | kwINTO | kwVALUES
  | lparen | rparen | comma
  | ident (s : String)
  | num (s : String)
  deriving DecidableEq, Repr

/-- Print an expression usable inside the fragment (bare identifiers and
numeric literals; other expressions do not occur in printable statements). -/
def printExprTok : Expr → List Tok
  | Expr.identifier s => [Tok.ident s]
  | Expr.value (Value.number n) => [Tok.num n]
  | _ => []

/-- Comma-separated identifier list. -/
def printCommaIdents : List String → List Tok
  | [] => []
  | [s] => [Tok.ident s]
  | s :: rest => Tok.ident s :: Tok.comma :: printCommaIdents rest

/-- Comma-separated expression list. -/
def printCommaExprs : List Expr → List Tok
  | [] => []
  | [e] => printExprTok e
  | e :: rest => printExprTok e ++ Tok.comma :: printCommaExprs rest

/-- Projection item rendering. -/
def printItemTok : SelectItem → List Tok
  | SelectItem.unnamedExpr e => printExprTok e
  | SelectItem.otherItem => []

/-- Comma-separated projection list. -/
def printCommaItems : List SelectItem → List Tok
  | [] => []
  | [it] => printItemTok it
  | it :: rest => printItemTok it ++ Tok.comma :: printCommaItems rest

/-- `ORDER BY` clause rendering (first term; the fragment admits at most
one ordering term). `ASC`/`DESC` is printed only when `asc` is `Some`,
as in sqlparser's `OrderByExpr` `Display`. -/
def printOrderClause : List OrderByExpr → List Tok
  | [] => []
  | obe :: _ =>
    [Tok.kwORDER, Tok.kwBY] ++
      (match obe.expr with
       | Expr.identifier c => [Tok.ident c]
       | _ => []) ++
      (match obe.asc with
       | none => []
       | some true => [Tok.kwASC]
       | some false => [Tok.kwDESC])

/-- `LIMIT` clause rendering: printed only when the limit is present. -/
def printLimitClause : Option Expr → List Tok
  | some (Expr.value (Value.number n)) => [Tok.kwLIMIT, Tok.num n]
  | _ => []

/-- `OFFSET` clause rendering: printed only when the offset is present. -/
def printOffsetClause : Option Expr → List Tok
  | some (Expr.value (Value.number n)) => [Tok.kwOFFSET, Tok.num n]
  | _ => []

/-- `FROM` clause rendering (single-table fragment). -/
def printFromClause : List String → List Tok
  | [t] => [Tok.kwFROM, Tok.ident t]
  | _ => []

/-- `Statement::to_string`: render a statement of the fragment back to SQL
tokens. -/
def printStmt : Statement → List Tok
  | Statement.query q =>
    Tok.kwSELECT ::
      ((match q.body with
        | SetExpr.select sel => printCommaItems sel.projection ++ printFromClause sel.fromTables
        | _ => []) ++
        printOrderClause q.order_by ++ printLimitClause q.limit ++ printOffsetClause q.offset)
  | Statement.insert tn cols source =>
    [Tok.kwINSERT, Tok.kwINTO] ++
      (match tn with
       | [t] => [Tok.ident t]
       | _ => []) ++
      [Tok.lparen] ++ printCommaIdents cols ++ [Tok.rparen, Tok.kwVALUES, Tok.lparen] ++
      (match source.body with
       | SetExpr.values [row] => printCommaExprs row
       | _ => []) ++
      [Tok.rparen]
  | Statement.otherStmt => []

/-- Parse a comma-separated identifier list, returning the names and the
remaining tokens. -/
def parseCommaIdents : List Tok → Except String (List String × List Tok)
  | Tok.ident s :: rest =>
    (match rest with
     | Tok.comma :: rest2 =>
       match parseCommaIdents rest2 with
       | .error e => .error e
       | .ok (l, r) => .ok (s :: l, r)
     | _ => .ok ([s], rest))
  | _ => .error "expected identifier"

/-- Parse a comma-separated list of insert value expressions (identifiers,
e.g. `?1` placeholders, or numeric literals). -/
def parseCommaExprs : List Tok → Except String (List Expr × List Tok)
  | Tok.ident s :: rest =>
    (match rest with
     | Tok.comma :: rest2 =>
       match parseCommaExprs rest2 with
       | .error e => .error e
       | .ok (l, r) => .ok (Expr.identifier s :: l, r)
     | _ => .ok ([Expr.identifier s], rest))
  | Tok.num s :: rest =>
    (match rest with
     | Tok.comma :: rest2 =>
       match parseCommaExprs rest2 with
       | .error e => .error e
       | .ok (l, r) => .ok (Expr.value (Value.number s) :: l, r)
     | _ => .ok ([Expr.value (Value.number s)], rest))
  | _ => .error "expected expression"

/-- Parse an optional `ORDER BY c [ASC|DESC]` clause. -/
def parseOrderClause : List Tok → List OrderByExpr × List Tok
  | Tok.kwORDER :: Tok.kwBY :: Tok.ident c :: Tok.kwASC :: rest =>
    ([{ expr := Expr.identifier c, asc := some true }], rest)
  | Tok.kwORDER :: Tok.kwBY :: Tok.ident c :: Tok.kwDESC :: rest =>
    ([{ expr := Expr.identifier c, asc := some false }], rest)
  | Tok.kwORDER :: Tok.kwBY :: Tok.ident c :: rest =>
    ([{ expr := Expr.identifier c, asc := none }], rest)
  | toks => ([], toks)

/-- Parse an optional `LIMIT n` clause. -/
def parseLimitClause : List Tok → Option String × List Tok
  | Tok.kwLIMIT :: Tok.num n :: rest => (some n, rest)
  | toks => (none, toks)

/-- Parse an optional `OFFSET n` clause. -/
def parseOffsetClause : List Tok → Option String × List Tok
  | Tok.kwOFFSET :: Tok.num n :: rest => (some n, rest)
  | toks => (none, toks)

/-- `Parser::parse` (parser.rs:36) on the embedded fragment: parse one
statement, rejecting anything else. -/
def parseStmt (toks : List Tok) : Except String Statement :=
  match toks with
  | Tok.kwSELECT :: rest =>
    match parseCommaIdents rest with
    | .error e => .error e
    | .ok (names, r1) =>
      match r1 with
      | Tok.kwFROM :: Tok.ident t :: r2 =>
        match parseOrderClause r2 with
        | (ob, r3) =>
          match parseLimitClause r3 with
          | (lim, r4) =>
            match parseOffsetClause r4 with
            | (off, r5) =>
              match r5 with
              | [] =>
                .ok (Statement.query
                  { body := SetExpr.select
                      { projection :=
                          names.map (fun s => SelectItem.unnamedExpr (Expr.identifier s)),
                        fromTables := [t] },
                    order_by := ob,
                    limit := lim.map (fun n => Expr.value (Value.number n)),
                    offset := off.map (fun n => Expr.value (Value.number n)) })
              | _ => .error "unexpected trailing tokens"
      | _ => .error "expected FROM"
  | Tok.kwINSERT :: Tok.kwINTO :: Tok.ident t :: Tok.lparen :: rest =>
    match parseCommaIdents rest with
    | .error e => .error e
    | .ok (cols, r1) =>
      match r1 with
      | Tok.rparen :: Tok.kwVALUES :: Tok.lparen :: r2 =>
        match parseCommaExprs r2 with
        | .error e => .error e
        | .ok (row, r3) =>
          match r3 with
          | [Tok.rparen] =>
            .ok (Statement.insert [t] cols
              { body := SetExpr.values [row], order_by := [], limit := none,
                offset := none })
          | _ => .error "unexpected trailing tokens"
      | _ => .error "expected VALUES"
  | _ => .error "unsupported statement"

/-! ## Rewriter (rewriter.rs) -/

/-- The `new_ast` computed by `ReWriter::rewrite` (rewriter.rs:7): a clone
of the statement with `limit` and `offset` set to `None` when it is a
`Query`, the statement unchanged otherwise. -/
def clearStatement : Statement → Statement
  | Statement.query query => Statement.query { query with limit := none, offset := none }
  | ast => ast

/-- `ReWriter::rewrite` (rewriter.rs:6): render `new_ast` back to SQL. -/
def ReWriter.rewrite (ast : Statement) : List Tok :=
  printStmt (clearStatement ast)

/-! ## The two prepare payloads (lib.rs) -/

/-- `ShardingIte::prepare` (lib.rs:99): parse the input, rewrite it, and
broadcast `DataCall::Prepare(rewritten)` to every shard.  This is the SQL
text each worker receives (parse errors propagate to the caller before any
send). -/
def coordinatorPreparePayload (sql : List Tok) : Except String (List Tok) :=
  match parseStmt sql with
  | .ok ast => .ok (ReWriter.rewrite ast)
  | .error e => .error e

/-- `Transaction::prepare` (lib.rs:196): parse the input (propagating
errors), then broadcast `DataCall::Prepare(sql.to_string())` — the
original input text — to every shard. -/
def transactionPreparePayload (sql : List Tok) : Except String (List Tok) :=
  match parseStmt sql with
  | .ok _ => .ok sql
  | .error e => .error e

/-! ## Rows iterator (lib.rs:365-573)

The channel protocol with the workers collapses to explicit state: entry
`i` of `shards` is the stream of rows still to be produced by the `i`-th
routed worker (`sharding_index_list` becomes positions `0..shards.length`;
a `RowsNext`/`Next` round trip becomes popping the head of that list). -/

/-- `HeapData(u32, i64, Vec<SqlValue>)` (lib.rs:366): source shard, order
column value, row payload.  Its `Ord` impl compares only the key. -/
structure HeapData where
  idx : Nat
  key : Int
  row : SqlRow
  deriving DecidableEq, Repr

/-- `Rows` (lib.rs:388): the per-shard streams plus the query plan,
produced-row counter, offset-skipped flag and the two optional heaps
(modelled as unordered lists, since `BinaryHeap`'s internal layout is
observable only through `pop`). -/
structure RowsState where
  shards : List (List SqlRow)
  query : Query
  counter : Nat
  skipped : Bool
  max_heap : Option (List HeapData)
  min_heap : Option (List HeapData)
  deriving DecidableEq, Repr

/-- `BinaryHeap<Reverse<HeapData>>::pop`: remove an element with minimal
key (ties broken arbitrarily by `BinaryHeap`; this model takes the first
minimal element). -/
def popMin : List HeapData → Option (HeapData × List HeapData)
  | [] => none
  | x :: xs =>
    match popMin xs with
    | none => some (x, [])
    | some (m, rest) => if x.key ≤ m.key then some (x, xs) else some (m, x :: rest)

/-- `BinaryHeap<HeapData>::pop`: remove an element with maximal key. -/
def popMax : List HeapData → Option (HeapData × List HeapData)
  | [] => none
  | x :: xs =>
    match popMax xs with
    | none => some (x, [])
    | some (m, rest) => if m.key ≤ x.key then some (x, xs) else some (m, x :: rest)

/-- `Rows::next_index` (lib.rs:541): one `RowsNext` round trip with worker
`i` — pop the head of its remaining stream, `none` at end of rows. -/
def nextIndex (s : RowsState) (i : Nat) : Option SqlRow × RowsState :=
  match s.shards[i]? with
  | some (r :: rest) => (some r, { s with shards := s.shards.set i rest })
  | _ => (none, s)

/-- `Rows::next_heap_data` (lib.rs:560): pull one row from worker `i` and
key it by the order column, which must hold an `Integer`. -/
def nextHeapData (s : RowsState) (i : Nat) (order_by : OrderBy) :
    Except String (Option HeapData × RowsState) :=
  match nextIndex s i with
  | (some val, s') =>
    match val[order_by.column_index]? with
    | some (SqlValue.integer n) => .ok (some ⟨i, n, val⟩, s')
    | _ => .error "Order by column type must be integer"
  | (none, s') => .ok (none, s')

/-- The heap-seeding loop of `Rows::next_with_order` (lib.rs:500, 520):
pull one entry from each listed worker into the fresh heap. -/
def seedHeap (order_by : OrderBy) : List Nat → List HeapData → RowsState →
    Except String (List HeapData × RowsState)
  | [], heap, s => .ok (heap, s)
  | i :: rest, heap, s =>
    match nextHeapData s i order_by with
    | .error e => .error e
    | .ok (some data, s') => seedHeap order_by rest (heap ++ [data]) s'
    | .ok (none, s') => seedHeap order_by rest heap s'

/-- `Rows::next_with_order` (lib.rs:495): seed the min-heap (ascending) or
max-heap (descending) on first use, then pop the extremum, refill from the
shard it came from, and emit its payload. -/
def nextWithOrder (s : RowsState) (order_by : OrderBy) :
    Except String (Option SqlRow × RowsState) :=
  if order_by.is_asc then
    match (match s.min_heap with
           | none => seedHeap order_by (List.range s.shards.length) [] s
           | some h => Except.ok (h, s)) with
    | .error e => .error e
    | .ok (heap, s1) =>
      match popMin heap with
      | some (data, rest) =>
        match nextHeapData { s1 with min_heap := some rest } data.idx order_by with
        | .error e => .error e
        | .ok (some data2, s2) =>
          .ok (some data.row, { s2 with min_heap := some (rest ++ [data2]) })
        | .ok (none, s2) => .ok (some data.row, { s2 with min_heap := some rest })
      | none => .ok (none, { s1 with min_heap := some heap })
  else
    match (match s.max_heap with
           | none => seedHeap order_by (List.range s.shards.length) [] s
           | some h => Except.ok (h, s)) with
    | .error e => .error e
    | .ok (heap, s1) =>
      match popMax heap with
      | some (data, rest) =>
        match nextHeapData { s1 with max_heap := some rest } data.idx order_by with
        | .error e => .error e
        | .ok (some data2, s2) =>
          .ok (some data.row, { s2 with max_heap := some (rest ++ [data2]) })
        | .ok (none, s2) => .ok (some data.row, { s2 with max_heap := some rest })
      | none => .ok (none, { s1 with max_heap := some heap })

/-- The shard walk of `Rows::next_without_order` (lib.rs:468): pull from
each worker in list order until one yields a row; exhausted workers answer
`Next(Ok(None))` and the walk moves on. -/
def nextWithoutOrderAux : List (List SqlRow) → Option (SqlRow × List (List SqlRow))
  | [] => none
  | [] :: rest =>
    match nextWithoutOrderAux rest with
    | some (r, rest') => some (r, [] :: rest')
    | none => none
  | (r :: rs) :: rest => some (r, rs :: rest)

/-- `Rows::next_without_order` on the state. -/
def nextWithoutOrder (s : RowsState) : Option SqlRow × RowsState :=
  match nextWithoutOrderAux s.shards with
  | some (r, shards') => (some r, { s with shards := shards' })
  | none => (none, s)

/-- `Rows::_next` (lib.rs:458): ordered merge when the plan has an
`OrderBy`, shard-order chaining otherwise. -/
def rowsUnderlyingNext (s : RowsState) : Except String (Option SqlRow × RowsState) :=
  match s.query.order_by with
  | some order_by => nextWithOrder s order_by
  | none => .ok (nextWithoutOrder s)

/-- `Row::get::<i64>` (lib.rs:612) with rusqlite's `FromSql` for `i64`:
the cell at `index` must exist and be an `Integer`. -/
def rowGetI64 (row : SqlRow) (index : Nat) : Except String Int :=
  match row[index]? with
  | none => .error ("Value of index " ++ toString index ++ " not found")
  | some (SqlValue.integer n) => .ok n
  | some _ => .error "Invalid column type"

/-- Number of rows still buffered in the per-shard streams. -/
def streamsSum (s : RowsState) : Nat :=
  (s.shards.map List.length).sum

/-- Size of an optional heap. -/
def heapSize : Option (List HeapData) → Nat
  | none => 0
  | some h => h.length

/-- Total number of rows still buffered anywhere in the state: the
termination measure for the drain loops. -/
def rowsMeasure (s : RowsState) : Nat :=
  streamsSum s + heapSize s.min_heap + heapSize s.max_heap

/-! ### Bookkeeping lemmas for the merge state -/

theorem sum_length_set {α : Type} (l : List (List α)) (i : Nat) (x y : List α)
    (h : l[i]? = some y) :
    ((l.set i x).map List.length).sum + y.length = (l.map List.length).sum + x.length := by
  induction l generalizing i with
  | nil => simp at h
  | cons hd tl ih =>
    cases i with
    | zero =>
      simp only [List.getElem?_cons_zero, Option.some.injEq] at h
      subst h
      simp [List.set]
      omega
    | succ j =>
      simp only [List.getElem?_cons_succ] at h
      have := ih j h
      simp only [List.set_cons_succ, List.map_cons, List.sum_cons]
      omega

theorem nextIndex_none {s : RowsState} {i : Nat} {s' : RowsState}
    (h : nextIndex s i = (none, s')) : s' = s := by
  unfold nextIndex at h
  split at h
  · simp at h
  · injection h with h1 h2
    exact h2.symm

theorem nextIndex_some {s : RowsState} {i : Nat} {r : SqlRow} {s' : RowsState}
    (h : nextIndex s i = (some r, s')) :
    streamsSum s' + 1 = streamsSum s ∧ s'.query = s.query ∧ s'.counter = s.counter ∧
      s'.skipped = s.skipped ∧ s'.min_heap = s.min_heap ∧ s'.max_heap = s.max_heap := by
  unfold nextIndex at h
  split at h <;> rename_i heq
  · rename_i r' rest
    injection h with h1 h2
    subst h2
    refine ⟨?_, rfl, rfl, rfl, rfl, rfl⟩
    have hs := sum_length_set s.shards i rest (r' :: rest) heq
    simp only [List.length_cons] at hs
    simp only [streamsSum]
    omega
  · simp at h

theorem nextHeapData_none {s : RowsState} {i : Nat} {ob : OrderBy} {s' : RowsState}
    (h : nextHeapData s i ob = .ok (none, s')) : s' = s := by
  unfold nextHeapData at h
  split at h <;> rename_i heq
  · split at h <;> simp at h
  · simp at h
    exact h.symm.trans (nextIndex_none heq)

theorem nextHeapData_some {s : RowsState} {i : Nat} {ob : OrderBy} {d : HeapData}
    {s' : RowsState} (h : nextHeapData s i ob = .ok (some d, s')) :
    streamsSum s' + 1 = streamsSum s ∧ s'.query = s.query ∧ s'.counter = s.counter ∧
      s'.skipped = s.skipped ∧ s'.min_heap = s.min_heap ∧ s'.max_heap = s.max_heap := by
  unfold nextHeapData at h
  split at h <;> rename_i heq
  · split at h <;> simp at h
    obtain ⟨h1, h2⟩ := h
    subst h2
    exact nextIndex_some heq
  · simp at h

theorem seedHeap_spec {ob : OrderBy} (idxs : List Nat) (heap : List HeapData)
    (s : RowsState) {heap' : List HeapData} {s' : RowsState}
    (h : seedHeap ob idxs heap s = .ok (heap', s')) :
    heap'.length + streamsSum s' = heap.length + streamsSum s ∧
      s'.query = s.query ∧ s'.counter = s.counter ∧ s'.skipped = s.skipped ∧
      s'.min_heap = s.min_heap ∧ s'.max_heap = s.max_heap := by
  induction idxs generalizing heap s with
  | nil =>
    unfold seedHeap at h
    simp at h
    obtain ⟨h1, h2⟩ := h
    subst h1; subst h2
    exact ⟨rfl, rfl, rfl, rfl, rfl, rfl⟩
  | cons i rest ih =>
    unfold seedHeap at h
    split at h <;> rename_i hd
    · simp at h
    · rename_i data s1
      have hs1 := nextHeapData_some hd
      have := ih (heap ++ [data]) s1 h
      simp only [List.length_append, List.length_cons, List.length_nil] at this
      obtain ⟨a1, a2, a3, a4, a5, a6⟩ := this
      obtain ⟨b1, b2, b3, b4, b5, b6⟩ := hs1
      exact ⟨by omega, a2.trans b2, a3.trans b3, a4.trans b4, a5.trans b5, a6.trans b6⟩
    · rename_i s1
      have hs1 : s1 = s := nextHeapData_none hd
      subst hs1
      exact ih heap _ h

theorem popMin_none {l : List HeapData} : popMin l = none ↔ l = [] := by
  cases l with
  | nil => simp [popMin]
  | cons x xs =>
    simp only [popMin]
    constructor
    · intro h
      split at h
      · simp at h
      · split at h <;> simp at h
    · intro h; simp at h

theorem popMin_length {l : List HeapData} {m : HeapData} {rest : List HeapData}
    (h : popMin l = some (m, rest)) : rest.length + 1 = l.length := by
  induction l generalizing m rest with
  | nil => simp [popMin] at h
  | cons x xs ih =>
    simp only [popMin] at h
    split at h <;> rename_i heq
    · simp at h
      have : xs = [] := popMin_none.mp heq
      subst this
      simp [← h.2]
    · split at h <;> simp at h
      · obtain ⟨h1, h2⟩ := h
        subst h2; simp
      · obtain ⟨h1, h2⟩ := h
        subst h2
        have := ih heq
        simp
        omega

theorem popMin_perm {l : List HeapData} {m : HeapData} {rest : List HeapData}
    (h : popMin l = some (m, rest)) : l.Perm (m :: rest) := by
  induction l generalizing m rest with
  | nil => simp [popMin] at h
  | cons x xs ih =>
    simp only [popMin] at h
    split at h <;> rename_i heq
    · simp at h
      have : xs = [] := popMin_none.mp heq
      subst this
      rw [← h.1, ← h.2]
    · split at h <;> simp at h
      · obtain ⟨h1, h2⟩ := h
        subst h1; subst h2
        exact List.Perm.refl _
      · obtain ⟨h1, h2⟩ := h
        subst h1; subst h2
        exact (List.Perm.cons x (ih heq)).trans (List.Perm.swap _ x _)

theorem popMin_min {l : List HeapData} {m : HeapData} {rest : List HeapData}
    (h : popMin l = some (m, rest)) : ∀ x ∈ l, m.key ≤ x.key := by
  induction l generalizing m rest with
  | nil => simp [popMin] at h
  | cons x xs ih =>
    simp only [popMin] at h
    split at h <;> rename_i heq
    · simp at h
      have : xs = [] := popMin_none.mp heq
      subst this
      intro y hy
      simp at hy
      subst hy
      simp [h.1]
    · split at h <;> rename_i hle <;> simp at h
      · obtain ⟨h1, h2⟩ := h
        subst h1
        intro y hy
        rcases List.mem_cons.mp hy with hy | hy
        · subst hy; exact le_refl _
        · exact le_trans hle (ih heq y hy)
      · obtain ⟨h1, h2⟩ := h
        subst h1
        intro y hy
        rcases List.mem_cons.mp hy with hy | hy
        · subst hy; exact le_of_not_le hle
        · exact ih heq y hy

theorem popMax_none {l : List HeapData} : popMax l = none ↔ l = [] := by
  cases l with
  | nil => simp [popMax]
  | cons x xs =>
    simp only [popMax]
    constructor
    · intro h
      split at h
      · simp at h
      · split at h <;> simp at h
    · intro h; simp at h

theorem popMax_length {l : List HeapData} {m : HeapData} {rest : List HeapData}
    (h : popMax l = some (m, rest)) : rest.length + 1 = l.length := by
  induction l generalizing m rest with
  | nil => simp [popMax] at h
  | cons x xs ih =>
    simp only [popMax] at h
    split at h <;> rename_i heq
    · simp at h
      have : xs = [] := popMax_none.mp heq
      subst this
      simp [← h.2]
    · split at h <;> simp at h
      · obtain ⟨h1, h2⟩ := h
        subst h2; simp
      · obtain ⟨h1, h2⟩ := h
        subst h2
        have := ih heq
        simp
        omega

theorem popMax_perm {l : List HeapData} {m : HeapData} {rest : List HeapData}
    (h : popMax l = some (m, rest)) : l.Perm (m :: rest) := by
  induction l generalizing m rest with
  | nil => simp [popMax] at h
  | cons x xs ih =>
    simp only [popMax] at h
    split at h <;> rename_i heq
    · simp at h
      have : xs = [] := popMax_none.mp heq
      subst this
      rw [← h.1, ← h.2]
    · split at h <;> simp at h
      · obtain ⟨h1, h2⟩ := h
        subst h1; subst h2
        exact List.Perm.refl _
      · obtain ⟨h1, h2⟩ := h
        subst h1; subst h2
        exact (List.Perm.cons x (ih heq)).trans (List.Perm.swap _ x _)

theorem popMax_max {l : List HeapData} {m : HeapData} {rest : List HeapData}
    (h : popMax l = some (m, rest)) : ∀ x ∈ l, x.key ≤ m.key := by
  induction l generalizing m rest with
  | nil => simp [popMax] at h
  | cons x xs ih =>
    simp only [popMax] at h
    split at h <;> rename_i heq
    · simp at h
      have : xs = [] := popMax_none.mp heq
      subst this
      intro y hy
      simp at hy
      subst hy
      simp [h.1]
    · split at h <;> rename_i hle <;> simp at h
      · obtain ⟨h1, h2⟩ := h
        subst h1
        intro y hy
        rcases List.mem_cons.mp hy with hy | hy
        · subst hy; exact le_refl _
        · exact le_trans (ih heq y hy) hle
      · obtain ⟨h1, h2⟩ := h
        subst h1
        intro y hy
        rcases List.mem_cons.mp hy with hy | hy
        · subst hy; exact le_of_not_le hle
        · exact ih heq y hy

theorem heapSize_none : heapSize none = 0 := rfl

theorem heapSize_some (h : List HeapData) : heapSize (some h) = h.length := rfl

theorem rowsMeasure_def (s : RowsState) :
    rowsMeasure s = streamsSum s + heapSize s.min_heap + heapSize s.max_heap := rfl

theorem nextWithoutOrderAux_none {shards : List (List SqlRow)}
    (h : nextWithoutOrderAux shards = none) : shards.flatten = [] := by
  induction shards with
  | nil => simp
  | cons l rest ih =>
    cases l with
    | nil =>
      unfold nextWithoutOrderAux at h
      split at h
      · simp at h
      · rename_i heq
        simp [ih heq]
    | cons r rs => simp [nextWithoutOrderAux] at h

theorem nextWithoutOrderAux_some {shards shards' : List (List SqlRow)} {r : SqlRow}
    (h : nextWithoutOrderAux shards = some (r, shards')) :
    shards.flatten = r :: shards'.flatten ∧ shards'.length = shards.length := by
  induction shards generalizing shards' with
  | nil => simp [nextWithoutOrderAux] at h
  | cons l rest ih =>
    cases l with
    | nil =>
      unfold nextWithoutOrderAux at h
      split at h
      · rename_i r0 rest' heq
        injection h with h1
        injection h1 with h1 h2
        subst h1
        subst h2
        have := ih heq
        simp [this.1, this.2]
      · simp at h
    | cons r0 rs =>
      simp only [nextWithoutOrderAux] at h
      injection h with h1
      injection h1 with h1 h2
      subst h1
      subst h2
      simp

theorem nextWithOrder_some_measure {s : RowsState} {ob : OrderBy} {r : SqlRow}
    {s' : RowsState} (h : nextWithOrder s ob = .ok (some r, s')) :
    rowsMeasure s' + 1 = rowsMeasure s := by
  unfold nextWithOrder at h
  split at h
  -- ascending: min-heap
  · split at h <;> rename_i hsrc
    · simp at h
    · rename_i heap s1
      have hineq : heap.length + streamsSum s1 = heapSize s.min_heap + streamsSum s ∧
          s1.max_heap = s.max_heap := by
        split at hsrc
        · rename_i hmin
          have hs := seedHeap_spec _ _ _ hsrc
          refine ⟨?_, hs.2.2.2.2.2⟩
          rw [hmin, heapSize_none]
          have h1 := hs.1
          simp only [List.length_nil] at h1
          omega
        · rename_i h0 hmin
          injection hsrc with h1
          injection h1 with h1 h2
          subst h1
          subst h2
          rw [hmin, heapSize_some]
          exact ⟨rfl, rfl⟩
      obtain ⟨hineq1, hineq2⟩ := hineq
      split at h <;> rename_i hpop
      · rename_i data rest
        have hlen := popMin_length hpop
        split at h <;> rename_i hnd
        · simp at h
        · rename_i data2 s2
          have hd := nextHeapData_some hnd
          have ht : streamsSum s2 + 1 = streamsSum s1 := hd.1
          have hmax2 : s2.max_heap = s.max_heap := hd.2.2.2.2.2.trans hineq2
          injection h with h1
          injection h1 with h1 h2
          subst h2
          have key : rowsMeasure { s2 with min_heap := some (rest ++ [data2]) }
              = streamsSum s2 + (rest ++ [data2]).length + heapSize s2.max_heap := rfl
          rw [key, rowsMeasure_def s, hmax2]
          simp only [List.length_append, List.length_cons, List.length_nil]
          omega
        · rename_i s2
          have hs2 := nextHeapData_none hnd
          subst hs2
          injection h with h1
          injection h1 with h1 h2
          subst h2
          have key : rowsMeasure { ({ s1 with min_heap := some rest } : RowsState) with
                min_heap := some rest }
              = streamsSum s1 + rest.length + heapSize s1.max_heap := rfl
          rw [key, rowsMeasure_def s, hineq2]
          omega
      · simp at h
  -- descending: max-heap
  · split at h <;> rename_i hsrc
    · simp at h
    · rename_i heap s1
      have hineq : heap.length + streamsSum s1 = heapSize s.max_heap + streamsSum s ∧
          s1.min_heap = s.min_heap := by
        split at hsrc
        · rename_i hmax
          have hs := seedHeap_spec _ _ _ hsrc
          refine ⟨?_, hs.2.2.2.2.1⟩
          rw [hmax, heapSize_none]
          have h1 := hs.1
          simp only [List.length_nil] at h1
          omega
        · rename_i h0 hmax
          injection hsrc with h1
          injection h1 with h1 h2
          subst h1
          subst h2
          rw [hmax, heapSize_some]
          exact ⟨rfl, rfl⟩
      obtain ⟨hineq1, hineq2⟩ := hineq
      split at h <;> rename_i hpop
      · rename_i data rest
        have hlen := popMax_length hpop
        split at h <;> rename_i hnd
        · simp at h
        · rename_i data2 s2
          have hd := nextHeapData_some hnd
          have ht : streamsSum s2 + 1 = streamsSum s1 := hd.1
          have hmin2 : s2.min_heap = s.min_heap := hd.2.2.2.2.1.trans hineq2
          injection h with h1
          injection h1 with h1 h2
          subst h2
          have key : rowsMeasure { s2 with max_heap := some (rest ++ [data2]) }
              = streamsSum s2 + heapSize s2.min_heap + (rest ++ [data2]).length := rfl
          rw [key, rowsMeasure_def s, hmin2]
          simp only [List.length_append, List.length_cons, List.length_nil]
          omega
        · rename_i s2
          have hs2 := nextHeapData_none hnd
          subst hs2
          injection h with h1
          injection h1 with h1 h2
          subst h2
          have key : rowsMeasure { ({ s1 with max_heap := some rest } : RowsState) with
                max_heap := some rest }
              = streamsSum s1 + heapSize s1.min_heap + rest.length := rfl
          rw [key, rowsMeasure_def s, hineq2]
          omega
      · simp at h

theorem rowsUnderlyingNext_some_measure {s : RowsState} {r : SqlRow} {s' : RowsState}
    (h : rowsUnderlyingNext s = .ok (some r, s')) : rowsMeasure s' + 1 = rowsMeasure s := by
  unfold rowsUnderlyingNext at h
  split at h
  · exact nextWithOrder_some_measure h
  · unfold nextWithoutOrder at h
    split at h <;> rename_i heq
    · rename_i r0 shards'
      injection h with h1
      injection h1 with h1 h2
      subst h2
      have hj := (nextWithoutOrderAux_some heq).1
      have hlen : shards'.flatten.length + 1 = s.shards.flatten.length := by
        rw [hj]
        simp
      simp only [rowsMeasure_def, streamsSum, ← List.length_flatten]
      omega
    · simp at h

/-- The `while let Some(row) = self._next()?` summation loop of the
`COUNT(*)` branch of `Rows::next` (lib.rs:438-441): drain the underlying
merged stream, adding each row's first-column integer to the running sum. -/
def drainSum (s : RowsState) (acc : Int) : Except String (Int × RowsState) :=
  match h : rowsUnderlyingNext s with
  | .error e => .error e
  | .ok (none, s') => .ok (acc, s')
  | .ok (some row, s') =>
    match rowGetI64 row 0 with
    | .error e => .error e
    | .ok n => drainSum s' (acc + n)
termination_by rowsMeasure s
decreasing_by
  have := rowsUnderlyingNext_some_measure h
  omega

/-- The offset-skipping loop of `Rows::next` (lib.rs:420-422):
`for _ in 0..limit.offset { self._next()?; }`. -/
def skipOffset : Nat → RowsState → Except String RowsState
  | 0, s => .ok s
  | n + 1, s =>
    match rowsUnderlyingNext s with
    | .error e => .error e
    | .ok (_, s') => skipOffset n s'

/-- The tail of `Rows::next` (lib.rs:428-455) after the limit/offset
bookkeeping: the `COUNT(*)` drain-and-sum, or a plain underlying step that
increments the produced-row counter. -/
def rowsNextTail (s : RowsState) : Except String (Option SqlRow × RowsState) :=
  match s.query.aggregate with
  | some (Aggregate.count col) =>
    if col ≠ "*" then
      .error "Currently only supports * with count function in query function"
    else
      match drainSum s 0 with
      | .error e => .error e
      | .ok (sum, s') =>
        if sum = 0 then .ok (none, s') else .ok (some [SqlValue.integer sum], s')
  | none =>
    match rowsUnderlyingNext s with
    | .error e => .error e
    | .ok (next, s') => .ok (next, { s' with counter := s'.counter + 1 })

/-- `Rows::next` (lib.rs:411): when the plan has a limit, first answer
end-of-stream once `counter` reaches it, and on the first emitting call
silently advance the underlying stream by `offset` rows; then aggregate or
emit. -/
def Rows.next (s : RowsState) : Except String (Option SqlRow × RowsState) :=
  match s.query.limit with
  | some limit =>
    if limit.limit ≤ s.counter then .ok (none, s)
    else
      match (if s.skipped then .ok s else skipOffset limit.offset s :
          Except String RowsState) with
      | .error e => .error e
      | .ok s1 => rowsNextTail { s1 with skipped := true }
  | none => rowsNextTail s

/-- Iterated calls: `nthNext k s` is the result of the `(k+1)`-th call to
`Rows::next` starting from `s`. -/
def nthNext : Nat → RowsState → Except String (Option SqlRow × RowsState)
  | 0, s => Rows.next s
  | k + 1, s =>
    match Rows.next s with
    | .error e => .error e
    | .ok (_, s') => nthNext k s'

/-- Repeatedly call `Rows::next_with_order` (lib.rs:495) until it reports
end of stream, collecting the emitted rows in order. -/
def drainOrdered (s : RowsState) (ob : OrderBy) :
    Except String (List SqlRow × RowsState) :=
  match h : nextWithOrder s ob with
  | .error e => .error e
  | .ok (none, s') => .ok ([], s')
  | .ok (some row, s') =>
    match drainOrdered s' ob with
    | .error e => .error e
    | .ok (out, s'') => .ok (row :: out, s'')
termination_by rowsMeasure s
decreasing_by
  have := nextWithOrder_some_measure h
  omega

/-- `ShardingIte::query_row` (lib.rs:122) downstream of prepare/query: pull
the first row of the merged stream and apply `f` to it; the error
"Query is empty" is returned exactly when the merge yields no first row. -/
def queryRow {T : Type} (s : RowsState) (f : SqlRow → Except String T) :
    Except String T :=
  match Rows.next s with
  | .error e => .error e
  | .ok (some row, _) => f row
  | .ok (none, _) => .error "Query is empty"

/-! ## Fire-and-forget execute (lib.rs:301, lib.rs:349, sql_daemon.rs:243) -/

/-- `DataRet` (sql_daemon.rs:76), restricted to the replies the execute
path produces on the shared return channel. -/
inductive DataRet
  | statementExecute (r : Except String Unit)
  | next (r : Except String (Option SqlRow))
  deriving Repr

/-- `process_statement` (sql_daemon.rs:245-254): the worker reports both
the `Ok` and the `Err` outcome of the engine execute back as a
`StatementExecute` reply on the return channel. -/
def daemonExecuteReply (engineResult : Except String Unit) : DataRet :=
  DataRet.statementExecute engineResult

/-- `Statement::execute` (lib.rs:301): route, send `StatementExecute` to
every routed shard (incrementing `exec_counter` per send), and return `Ok`
without receiving anything.  `engine i` is the engine outcome on shard `i`
and `queue` the shared return channel after each routed worker has
processed its request. -/
def statementExecute (config : ShardingConfig) (ast : Statement)
    (params : List SqlParam) (exec_counter : Nat)
    (engine : Nat → Except String Unit) (queue : List DataRet) :
    Except String (Unit × Nat × List DataRet) :=
  match get_indexes_with_params config ast params with
  | .error e => .error e
  | .ok list =>
    .ok ((), exec_counter + list.length,
      queue ++ list.map (fun i => daemonExecuteReply (engine i)))

/-- `impl Drop for Statement` (lib.rs:349-357): receive exactly
`exec_counter` replies from the return channel, ignoring their contents
entirely; what remains on the channel afterwards. -/
def statementDropDrain (exec_counter : Nat) (queue : List DataRet) : List DataRet :=
  queue.drop exec_counter

/-! ### Draining lemmas for the unordered merge -/

/-- The integer in a row's first cell (the value `Row::get::<i64>(0)`
yields on integer-headed rows; `0` as a don't-care default elsewhere). -/
def cellInt (r : SqlRow) : Int :=
  match r[0]? with
  | some (SqlValue.integer n) => n
  | _ => 0

theorem rowGetI64_ok {r : SqlRow} {n : Int}
    (h : r[0]? = some (SqlValue.integer n)) : rowGetI64 r 0 = .ok n := by
  unfold rowGetI64
  rw [h]

theorem nextWithoutOrderAux_of_flatten_nil {shards : List (List SqlRow)}
    (h : shards.flatten = []) : nextWithoutOrderAux shards = none := by
  induction shards with
  | nil => rfl
  | cons l rest ih =>
    rw [List.flatten_cons] at h
    obtain ⟨h1, h2⟩ := List.append_eq_nil.mp h
    subst h1
    unfold nextWithoutOrderAux
    rw [ih h2]

theorem drainSum_noOrder :
    ∀ (N : Nat) (s : RowsState) (acc : Int), rowsMeasure s ≤ N →
    s.query.order_by = none →
    (∀ row ∈ s.shards.flatten, ∃ n, row[0]? = some (SqlValue.integer n)) →
    ∃ s', drainSum s acc = .ok (acc + (s.shards.flatten.map cellInt).sum, s') ∧
      s'.shards.flatten = [] ∧ s'.shards.length = s.shards.length ∧
      s'.query = s.query ∧ s'.counter = s.counter ∧ s'.skipped = s.skipped ∧
      s'.min_heap = s.min_heap ∧ s'.max_heap = s.max_heap := by
  intro N
  induction N with
  | zero =>
    intro s acc hm hord hint
    have hflat : s.shards.flatten = [] := by
      have : s.shards.flatten.length = 0 := by
        have := rowsMeasure_def s
        simp only [streamsSum, ← List.length_flatten] at this
        omega
      exact List.length_eq_zero.mp this
    refine ⟨s, ?_, hflat, rfl, rfl, rfl, rfl, rfl, rfl⟩
    rw [drainSum]
    have hnext : rowsUnderlyingNext s = .ok (none, s) := by
      unfold rowsUnderlyingNext
      rw [hord]
      unfold nextWithoutOrder
      rw [nextWithoutOrderAux_of_flatten_nil hflat]
    rw [hnext]
    simp [hflat]
  | succ N ih =>
    intro s acc hm hord hint
    rcases hx : nextWithoutOrderAux s.shards with _ | ⟨r, shards2⟩
    · have hflat : s.shards.flatten = [] := nextWithoutOrderAux_none hx
      refine ⟨s, ?_, hflat, rfl, rfl, rfl, rfl, rfl, rfl⟩
      rw [drainSum]
      have hnext : rowsUnderlyingNext s = .ok (none, s) := by
        unfold rowsUnderlyingNext
        rw [hord]
        unfold nextWithoutOrder
        rw [hx]
      rw [hnext]
      simp [hflat]
    · have hfs := nextWithoutOrderAux_some hx
      have hnext : rowsUnderlyingNext s = .ok (some r, { s with shards := shards2 }) := by
        unfold rowsUnderlyingNext
        rw [hord]
        unfold nextWithoutOrder
        rw [hx]
      have hrmem : r ∈ s.shards.flatten := by
        rw [hfs.1]
        simp
      obtain ⟨n, hn⟩ := hint r hrmem
      have hmeas := rowsUnderlyingNext_some_measure hnext
      have hint2 : ∀ row ∈ shards2.flatten, ∃ m, row[0]? = some (SqlValue.integer m) := by
        intro row hrow
        exact hint row (by rw [hfs.1]; simp [hrow])
      obtain ⟨s', hd, he, hl, hq, hc, hsk, hmin, hmax⟩ :=
        ih { s with shards := shards2 } (acc + n) (by omega) hord hint2
      refine ⟨s', ?_, he, hl.trans hfs.2, hq, hc, hsk, hmin, hmax⟩
      rw [drainSum, hnext]
      have hcell : cellInt r = n := by
        unfold cellInt
        rw [hn]
      simp only [rowGetI64_ok hn, hd, hfs.1, List.map_cons, List.sum_cons, hcell]
      have harith : acc + n + (List.map cellInt shards2.flatten).sum
          = acc + (n + (List.map cellInt shards2.flatten).sum) := by omega
      rw [harith]

theorem skipOffset_noOrder :
    ∀ (n : Nat) (s : RowsState), s.query.order_by = none →
    ∃ s', skipOffset n s = .ok s' ∧ s'.shards.flatten = s.shards.flatten.drop n ∧
      s'.shards.length = s.shards.length ∧ s'.query = s.query ∧
      s'.counter = s.counter ∧ s'.skipped = s.skipped ∧
      s'.min_heap = s.min_heap ∧ s'.max_heap = s.max_heap := by
  intro n
  induction n with
  | zero =>
    intro s hord
    exact ⟨s, rfl, by simp, rfl, rfl, rfl, rfl, rfl, rfl⟩
  | succ n ih =>
    intro s hord
    rcases hx : nextWithoutOrderAux s.shards with _ | ⟨r, shards2⟩
    · have hflat : s.shards.flatten = [] := nextWithoutOrderAux_none hx
      obtain ⟨s', h1, h2, h3, h4, h5, h6, h7, h8⟩ := ih s hord
      refine ⟨s', ?_, ?_, h3, h4, h5, h6, h7, h8⟩
      · unfold skipOffset
        have hnext : rowsUnderlyingNext s = .ok (none, s) := by
          unfold rowsUnderlyingNext
          rw [hord]
          unfold nextWithoutOrder
          rw [hx]
        rw [hnext]
        exact h1
      · rw [h2, hflat]
        simp
    · have hfs := nextWithoutOrderAux_some hx
      obtain ⟨s', h1, h2, h3, h4, h5, h6, h7, h8⟩ := ih { s with shards := shards2 } hord
      refine ⟨s', ?_, ?_, h3.trans hfs.2, h4, h5, h6, h7, h8⟩
      · unfold skipOffset
        have hnext : rowsUnderlyingNext s = .ok (some r, { s with shards := shards2 }) := by
          unfold rowsUnderlyingNext
          rw [hord]
          unfold nextWithoutOrder
          rw [hx]
        rw [hnext]
        exact h1
      · rw [h2, hfs.1]
        simp

theorem rows_next_no_limit {s : RowsState} (h : s.query.limit = none) :
    Rows.next s = rowsNextTail s := by
  unfold Rows.next
  rw [h]

theorem rows_next_empty_count {s : RowsState}
    (hq : s.query = { limit := none, order_by := none,
                      aggregate := some (Aggregate.count "*") })
    (hflat : s.shards.flatten = []) :
    Rows.next s = .ok (none, s) := by
  have hlim : s.query.limit = none := by rw [hq]
  have hagg : s.query.aggregate = some (Aggregate.count "*") := by rw [hq]
  have hord : s.query.order_by = none := by rw [hq]
  have hnext : rowsUnderlyingNext s = .ok (none, s) := by
    unfold rowsUnderlyingNext
    rw [hord]
    unfold nextWithoutOrder
    rw [nextWithoutOrderAux_of_flatten_nil hflat]
  have hds : drainSum s 0 = .ok (0, s) := by
    rw [drainSum, hnext]
  rw [rows_next_no_limit hlim]
  unfold rowsNextTail
  rw [hagg]
  simp [hds]

theorem nthNext_empty_count {s : RowsState} (k : Nat)
    (hq : s.query = { limit := none, order_by := none,
                      aggregate := some (Aggregate.count "*") })
    (hflat : s.shards.flatten = []) :
    nthNext k s = .ok (none, s) := by
  induction k with
  | zero => exact rows_next_empty_count hq hflat
  | succ k ih =>
    unfold nthNext
    rw [rows_next_empty_count hq hflat]
    exact ih

theorem forall2_single_rows {ns : List Int} {shards : List (List SqlRow)}
    (h : List.Forall₂
      (fun n shard => ∃ r, shard = [r] ∧ r[0]? = some (SqlValue.integer n)) ns shards) :
    (shards.flatten.map cellInt).sum = ns.sum ∧
      (∀ row ∈ shards.flatten, ∃ n, row[0]? = some (SqlValue.integer n)) := by
  induction h with
  | nil => simp
  | cons hd tl ih =>
    obtain ⟨r, hr1, hr2⟩ := hd
    subst hr1
    constructor
    · have hcell : ∀ m : Int, r[0]? = some (SqlValue.integer m) → cellInt r = m := by
        intro m hm
        unfold cellInt
        rw [hm]
      rw [List.flatten_cons, List.map_append, List.sum_append, ih.1]
      simp [hcell _ hr2]
    · intro row hrow
      simp at hrow
      rcases hrow with hrow | hrow
      · subst hrow
        exact ⟨_, hr2⟩
      · exact ih.2 row (List.mem_flatten.mpr hrow)

/-! ## Shared concrete instances for witnesses -/

/-- A concrete two-shard configuration in the shape of the test suite:
table `user`, sharding column `id`, `shard_of(n) = n mod 2`. -/
def sampleConfig : ShardingConfig :=
  { sharding_count := 2
    sharding_table := "user"
    sharding_column := "id"
    sharding_index := fun p =>
      match p with
      | SqlParam.i64 n => .ok (Int.toNat (n % 2))
      | SqlParam.u32 n => .ok (n % 2)
      | SqlParam.u16 n => .ok (n % 2)
      | SqlParam.string _ => .error "invalid sharding key" }

/-! ## Claim theorems -/

/-- C8: `query_row` prepares and queries, then returns `f` applied to the
first row of the merged stream when the merge yields at least one row, and
returns the `EmptyResult` error ("Query is empty") exactly when the merge
yields nothing (for `f` that does not itself fabricate that error). -/
theorem query_row_first_row_or_empty {T : Type} (s : RowsState)
    (f : SqlRow → Except String T) :
    (∀ row s', Rows.next s = .ok (some row, s') → queryRow s f = f row) ∧
    (∀ s', Rows.next s = .ok (none, s') → queryRow s f = .error "Query is empty") ∧
    (∀ out, Rows.next s = .ok out → (∀ r, f r ≠ .error "Query is empty") →
      (queryRow s f = .error "Query is empty" ↔ out.1 = none)) := by
  unfold queryRow
  refine ⟨?_, ?_, ?_⟩
  · intro row s' h
    rw [h]
  · intro s' h
    rw [h]
  · intro out hout hf
    rw [hout]
    rcases out with ⟨r, s'⟩
    cases r with
    | some row =>
      simp only []
      constructor
      · intro hh
        exact absurd hh (hf row)
      · intro hh
        simp at hh
    | none => simp

/-- C8 witness: on a one-shard stream holding a single row, `query_row`
returns `f` of that row, and the empty-result characterization holds. -/
theorem query_row_first_row_or_empty_witness :
    queryRow
        { shards := [[[SqlValue.integer 7]]],
          query := { limit := none, order_by := none, aggregate := none },
          counter := 0, skipped := false, max_heap := none, min_heap := none }
        (fun r => .ok r)
      = .ok [SqlValue.integer 7] := by
  have h := query_row_first_row_or_empty
    (T := SqlRow)
    { shards := [[[SqlValue.integer 7]]],
      query := { limit := none, order_by := none, aggregate := none },
      counter := 0, skipped := false, max_heap := none, min_heap := none }
    (fun r => .ok r)
  exact h.1 [SqlValue.integer 7]
    { shards := [[]], query := { limit := none, order_by := none, aggregate := none },
      counter := 1, skipped := false, max_heap := none, min_heap := none }
    (by simp [Rows.next, rowsNextTail, rowsUnderlyingNext, nextWithoutOrder,
          nextWithoutOrderAux])

/-- C9: an engine error during a fire-and-forget `Statement::execute` is
never surfaced.  For any engine outcomes (including errors), `execute`
returns `Ok` as soon as the `StatementExecute` requests are sent, merely
adding the number of routed shards to `exec_counter`, and the statement's
drop drains exactly that many replies without inspecting their variant, so
`StatementExecute(Err)` replies are silently discarded. -/
theorem statement_execute_swallows_engine_errors
    (config : ShardingConfig) (ast : Statement) (params : List SqlParam)
    (engine : Nat → Except String Unit) (list : List Nat)
    (hroute : get_indexes_with_params config ast params = .ok list) :
    statementExecute config ast params 0 engine []
        = .ok ((), list.length, list.map (fun i => daemonExecuteReply (engine i))) ∧
      statementDropDrain list.length
          (list.map (fun i => daemonExecuteReply (engine i))) = [] := by
  constructor
  · unfold statementExecute
    rw [hroute]
    simp
  · unfold statementDropDrain
    simp

/-- C9 witness: with every shard's engine failing, `execute` still returns
`Ok` and drop leaves the return channel empty. -/
theorem statement_execute_swallows_engine_errors_witness :
    statementExecute sampleConfig Statement.otherStmt [] 0
        (fun _ => .error "engine failure") []
        = .ok ((), 2,
            [daemonExecuteReply (.error "engine failure"),
             daemonExecuteReply (.error "engine failure")]) ∧
      statementDropDrain 2
          [daemonExecuteReply (.error "engine failure"),
           daemonExecuteReply (.error "engine failure")] = [] := by
  have h := statement_execute_swallows_engine_errors sampleConfig Statement.otherStmt []
    (fun _ => .error "engine failure") [0, 1] (by rfl)
  simpa using h

/-- C10: a single-row INSERT into the sharding table whose column list
contains the sharding column at position `j` but whose VALUES tuple has no
expression at position `j` does not fail: routing silently falls through
and returns the full shard set `[0, N)`. -/
theorem router_short_values_tuple_full_set (config : ShardingConfig)
    (table_name : List String) (columns : List String) (source : QueryAst)
    (row : List Expr) (params : List SqlParam) (j : Nat)
    (htn : table_name.head? = some config.sharding_table)
    (hcol : columns.findIdx? (fun s => s = config.sharding_column) = some j)
    (hbody : source.body = SetExpr.values [row])
    (hshort : row.length ≤ j) :
    get_indexes_with_params config (Statement.insert table_name columns source) params
      = .ok (List.range config.sharding_count) := by
  have hnone : row[j]? = none := List.getElem?_eq_none hshort
  simp [get_indexes_with_params, htn, hcol, hbody, hnone]

/-- C10 witness: `INSERT INTO user (name, id) VALUES ('x')` — the tuple is
one expression short of the `id` column — routes to both shards. -/
theorem router_short_values_tuple_full_set_witness :
    get_indexes_with_params sampleConfig
        (Statement.insert ["user"] ["name", "id"]
          { body := SetExpr.values [[Expr.value Value.otherValue]],
            order_by := [], limit := none, offset := none })
        []
      = .ok [0, 1] := by
  have h := router_short_values_tuple_full_set sampleConfig ["user"] ["name", "id"]
    { body := SetExpr.values [[Expr.value Value.otherValue]],
      order_by := [], limit := none, offset := none }
    [Expr.value Value.otherValue] [] 1 (by rfl) (by decide) (by rfl) (by decide)
  simpa using h

/-- A fresh `Rows` state for a `SELECT count(*)` plan with no limit and no
order over the given per-shard streams. -/
def countState (shards : List (List SqlRow)) : RowsState :=
  { shards := shards,
    query := { limit := none, order_by := none, aggregate := some (Aggregate.count "*") },
    counter := 0, skipped := false, max_heap := none, min_heap := none }

/-- A fresh `Rows` state for a `SELECT count(*)` plan carrying
`Limit { limit := L, offset := O }`. -/
def limitCountState (shards : List (List SqlRow)) (L O : Nat) : RowsState :=
  { shards := shards,
    query := { limit := some { limit := L, offset := O }, order_by := none,
               aggregate := some (Aggregate.count "*") },
    counter := 0, skipped := false, max_heap := none, min_heap := none }

/-- C4: for a `COUNT(*)` plan with no limit where each shard yields exactly
one row whose first column is `Integer(nᵢ)`, the first `Rows::next` drains
every shard and returns the single row `[Integer(Σ nᵢ)]` when the total is
positive, end-of-stream when the total is zero, and every subsequent call
returns end-of-stream. -/
theorem count_star_no_limit (ns : List Int) (shards : List (List SqlRow))
    (hs : List.Forall₂
      (fun n shard => ∃ r, shard = [r] ∧ r[0]? = some (SqlValue.integer n)) ns shards) :
    (0 < ns.sum → ∃ s', Rows.next (countState shards)
        = .ok (some [SqlValue.integer ns.sum], s')) ∧
    (ns.sum = 0 → ∃ s', Rows.next (countState shards) = .ok (none, s')) ∧
    (∀ out s₁, Rows.next (countState shards) = .ok (out, s₁) →
      ∀ k, nthNext k s₁ = .ok (none, s₁)) := by
  obtain ⟨hsum, hint0⟩ := forall2_single_rows hs
  have hint : ∀ row ∈ (countState shards).shards.flatten,
      ∃ n, row[0]? = some (SqlValue.integer n) := hint0
  obtain ⟨s', hd, hflat', hlen', hq', hc', hsk', hmin', hmax'⟩ :=
    drainSum_noOrder (rowsMeasure (countState shards)) (countState shards) 0
      (le_refl _) rfl hint
  have hshards : (countState shards).shards = shards := rfl
  rw [hshards] at hd
  simp only [zero_add] at hd
  rw [hsum] at hd
  have hagg : (countState shards).query.aggregate = some (Aggregate.count "*") := rfl
  have hnext : Rows.next (countState shards)
      = if ns.sum = 0 then .ok (none, s')
        else .ok (some [SqlValue.integer ns.sum], s') := by
    rw [rows_next_no_limit rfl]
    unfold rowsNextTail
    rw [hagg]
    simp [hd]
  have hqcount : s'.query = { limit := none, order_by := none,
                              aggregate := some (Aggregate.count "*") } := hq'
  refine ⟨?_, ?_, ?_⟩
  · intro hpos
    refine ⟨s', ?_⟩
    rw [hnext, if_neg (by omega)]
  · intro h0
    refine ⟨s', ?_⟩
    rw [hnext, if_pos h0]
  · intro out s₁ hout k
    rw [hnext] at hout
    have hs₁ : s₁ = s' := by
      by_cases h0 : ns.sum = 0
      · rw [if_pos h0] at hout
        injection hout with h1
        exact (congrArg Prod.snd h1).symm.trans rfl
      · rw [if_neg h0] at hout
        injection hout with h1
        exact (congrArg Prod.snd h1).symm.trans rfl
    subst hs₁
    exact nthNext_empty_count k hqcount hflat'

/-- C4 witness: shards reporting local counts 2 and 3 produce the single
row `[Integer 5]`, and the second call reports end-of-stream. -/
theorem count_star_no_limit_witness :
    (∃ s', Rows.next (countState [[[SqlValue.integer 2]], [[SqlValue.integer 3]]])
        = .ok (some [SqlValue.integer 5], s')) ∧
    (∀ out s₁,
      Rows.next (countState [[[SqlValue.integer 2]], [[SqlValue.integer 3]]])
          = .ok (out, s₁) →
      nthNext 0 s₁ = .ok (none, s₁)) := by
  have h := count_star_no_limit [2, 3] [[[SqlValue.integer 2]], [[SqlValue.integer 3]]]
    (List.Forall₂.cons ⟨[SqlValue.integer 2], rfl, rfl⟩
      (List.Forall₂.cons ⟨[SqlValue.integer 3], rfl, rfl⟩ List.Forall₂.nil))
  constructor
  · have := h.1 (by norm_num)
    simpa using this
  · intro out s₁ hout
    exact h.2.2 out s₁ hout 0

/-- C2 (amended): with a `COUNT(*)` aggregate and `Limit{L, O}`, offset
skipping runs over the underlying merged stream BEFORE the aggregation
loop: the first call (counter `0`, nothing skipped yet, `0 < L`) silently
consumes the first `O` underlying merged rows, then sums only the
remaining rows, returning `[Integer(sum)]` when the sum is nonzero and
end-of-stream when it is zero. -/
theorem count_with_limit_skips_before_sum (shards : List (List SqlRow)) (L O : Nat)
    (hL : 0 < L)
    (hint : ∀ row ∈ shards.flatten, ∃ n, row[0]? = some (SqlValue.integer n)) :
    ∃ s', Rows.next (limitCountState shards L O)
      = .ok
        ((if ((shards.flatten.drop O).map cellInt).sum = 0 then none
          else some [SqlValue.integer ((shards.flatten.drop O).map cellInt).sum]), s') := by
  obtain ⟨s1, hskip, hflat1, hlen1, hq1, hc1, hsk1, hmin1, hmax1⟩ :=
    skipOffset_noOrder O (limitCountState shards L O) rfl
  have hflat1' : s1.shards.flatten = shards.flatten.drop O := hflat1
  have hint2 : ∀ row ∈ ({ s1 with skipped := true } : RowsState).shards.flatten,
      ∃ n, row[0]? = some (SqlValue.integer n) := by
    intro row hrow
    have : row ∈ shards.flatten.drop O := by
      have hsh : ({ s1 with skipped := true } : RowsState).shards = s1.shards := rfl
      rw [hsh, hflat1'] at hrow
      exact hrow
    exact hint row (List.drop_subset _ _ this)
  have hord2 : ({ s1 with skipped := true } : RowsState).query.order_by = none := by
    have : ({ s1 with skipped := true } : RowsState).query = s1.query := rfl
    rw [this, hq1]
    rfl
  obtain ⟨s', hd, hflat', hlen', hq', hc', hsk', hmin', hmax'⟩ :=
    drainSum_noOrder (rowsMeasure ({ s1 with skipped := true } : RowsState))
      ({ s1 with skipped := true } : RowsState) 0 (le_refl _) hord2 hint2
  have hflats2 : ({ s1 with skipped := true } : RowsState).shards.flatten
      = shards.flatten.drop O := hflat1'
  rw [hflats2] at hd
  simp only [zero_add] at hd
  have hagg : ({ s1 with skipped := true } : RowsState).query.aggregate
      = some (Aggregate.count "*") := by
    have : ({ s1 with skipped := true } : RowsState).query = s1.query := rfl
    rw [this, hq1]
    rfl
  refine ⟨s', ?_⟩
  have hlim : (limitCountState shards L O).query.limit
      = some { limit := L, offset := O } := rfl
  unfold Rows.next
  rw [hlim]
  have hcnt : (limitCountState shards L O).counter = 0 := rfl
  have hskf : (limitCountState shards L O).skipped = false := rfl
  simp only [hcnt, hskf, Bool.false_eq_true, if_false, hskip]
  unfold rowsNextTail
  rw [hagg]
  simp [hd]
  rw [if_neg (show ¬ L = 0 from by omega)]
  split <;> rename_i hz <;> simp [hz]

/-- C2 counterexample state: two shards reporting local counts 2 and 3,
plan `COUNT(*)` with `LIMIT 1 OFFSET 1`. -/
def c2State : RowsState := limitCountState [[[SqlValue.integer 2]], [[SqlValue.integer 3]]] 1 1

/-- The behavior C2 describes, rendered as a function: aggregate the FULL
merged multiset into `total` first (one row `[Integer(total)]` when
`total > 0`, the empty stream otherwise) and only then apply the
offset/limit window to that aggregated stream; the first emitted row. -/
def nextAggregateFirstSpec (s : RowsState) : Option SqlRow :=
  let total := (s.shards.flatten.map cellInt).sum
  let aggStream : List SqlRow :=
    if total = 0 then [] else [[SqlValue.integer total]]
  let windowed :=
    match s.query.limit with
    | some lim => (aggStream.drop lim.offset).take lim.limit
    | none => aggStream
  windowed.head?

/-- C2 counterexample: on `c2State` the code's first call returns
`[Integer 3]` — the offset consumed shard 0's count row before the sum —
while the claimed aggregate-first semantics yields end-of-stream (the
window drops the single aggregated row `[Integer 5]`). -/
theorem count_with_limit_counterexample :
    (Rows.next c2State).map Prod.fst = .ok (some [SqlValue.integer 3]) ∧
      nextAggregateFirstSpec c2State = none := by
  have hds : drainSum
      { shards := [[], [[SqlValue.integer 3]]],
        query := { limit := some { limit := 1, offset := 1 }, order_by := none,
                   aggregate := some (Aggregate.count "*") },
        counter := 0, skipped := true, max_heap := none, min_heap := none } 0
      = .ok (3,
        { shards := [[], []],
          query := { limit := some { limit := 1, offset := 1 }, order_by := none,
                     aggregate := some (Aggregate.count "*") },
          counter := 0, skipped := true, max_heap := none, min_heap := none }) := by
    simp [drainSum, rowsUnderlyingNext, nextWithoutOrder, nextWithoutOrderAux, rowGetI64]
  have hstep : Rows.next c2State = rowsNextTail
      { shards := [[], [[SqlValue.integer 3]]],
        query := { limit := some { limit := 1, offset := 1 }, order_by := none,
                   aggregate := some (Aggregate.count "*") },
        counter := 0, skipped := true, max_heap := none, min_heap := none } := rfl
  constructor
  · rw [hstep]
    unfold rowsNextTail
    simp [hds]
    rfl
  · simp [nextAggregateFirstSpec, c2State, limitCountState, cellInt]

/-- C2 (amended) witness: the concrete `c2State` instantiation — the first
call returns `[Integer 3]`, the sum of the rows after the skipped one. -/
theorem count_with_limit_skips_before_sum_witness :
    ∃ s', Rows.next (limitCountState [[[SqlValue.integer 2]], [[SqlValue.integer 3]]] 1 1)
      = .ok (some [SqlValue.integer 3], s') := by
  have h := count_with_limit_skips_before_sum
    [[[SqlValue.integer 2]], [[SqlValue.integer 3]]] 1 1 (by decide)
    (by
      intro row hrow
      simp at hrow
      rcases hrow with h | h
      · subst h
        exact ⟨2, rfl⟩
      · subst h
        exact ⟨3, rfl⟩)
  simpa using h

/-- C5: routing policy of `Router::get_indexes_with_params`.  A single-row
INSERT into the configured sharding table whose column list contains the
sharding column at position `j` routes to `[sharding_index(params[j])]`
when the value expression at `j` is a `?`-placeholder (erroring when
`params` has no element at `j`), and to `[shard_of(I64(n))]` when it is a
numeric literal parsing as a signed 64-bit integer (an error otherwise);
every other statement shape — non-INSERT, different table, or sharding
column absent — yields the full ascending set `[0, N)`. -/
theorem router_routing_policy (config : ShardingConfig) (params : List SqlParam) :
    (∀ q : QueryAst, get_indexes_with_params config (Statement.query q) params
        = .ok (List.range config.sharding_count)) ∧
    (get_indexes_with_params config Statement.otherStmt params
        = .ok (List.range config.sharding_count)) ∧
    (∀ tn cols src, tn.head? ≠ some config.sharding_table →
      get_indexes_with_params config (Statement.insert tn cols src) params
        = .ok (List.range config.sharding_count)) ∧
    (∀ tn cols src, tn.head? = some config.sharding_table →
      cols.findIdx? (fun s => s = config.sharding_column) = none →
      get_indexes_with_params config (Statement.insert tn cols src) params
        = .ok (List.range config.sharding_count)) ∧
    (∀ tn cols src row j id p, tn.head? = some config.sharding_table →
      cols.findIdx? (fun s => s = config.sharding_column) = some j →
      src.body = SetExpr.values [row] →
      row[j]? = some (Expr.identifier id) →
      strStartsWith id "?" = true →
      params[j]? = some p →
      get_indexes_with_params config (Statement.insert tn cols src) params
        = (config.sharding_index p).map (fun r => [r])) ∧
    (∀ tn cols src row j id, tn.head? = some config.sharding_table →
      cols.findIdx? (fun s => s = config.sharding_column) = some j →
      src.body = SetExpr.values [row] →
      row[j]? = some (Expr.identifier id) →
      strStartsWith id "?" = true →
      params[j]? = none →
      get_indexes_with_params config (Statement.insert tn cols src) params
        = .error "Sharding param not found") ∧
    (∀ tn cols src row j n k, tn.head? = some config.sharding_table →
      cols.findIdx? (fun s => s = config.sharding_column) = some j →
      src.body = SetExpr.values [row] →
      row[j]? = some (Expr.value (Value.number n)) →
      parseI64 n = some k →
      get_indexes_with_params config (Statement.insert tn cols src) params
        = (config.sharding_index (SqlParam.i64 k)).map (fun r => [r])) ∧
    (∀ tn cols src row j e, tn.head? = some config.sharding_table →
      cols.findIdx? (fun s => s = config.sharding_column) = some j →
      src.body = SetExpr.values [row] →
      row[j]? = some e →
      (∀ id, e = Expr.identifier id → strStartsWith id "?" = false) →
      (∀ n, e = Expr.value (Value.number n) → parseI64 n = none) →
      ∃ msg, get_indexes_with_params config (Statement.insert tn cols src) params
        = .error msg) := by
  refine ⟨?_, ?_, ?_, ?_, ?_, ?_, ?_, ?_⟩
  · intro q
    simp [get_indexes_with_params]
  · simp [get_indexes_with_params]
  · intro tn cols src htn
    simp [get_indexes_with_params, htn]
  · intro tn cols src htn hcol
    simp [get_indexes_with_params, htn, hcol]
  · intro tn cols src row j id p htn hcol hbody hrow hq hp
    simp [get_indexes_with_params, htn, hcol, hbody, hrow, hq, hp]
    rcases config.sharding_index p with e | r <;> rfl
  · intro tn cols src row j id htn hcol hbody hrow hq hp
    simp [get_indexes_with_params, htn, hcol, hbody, hrow, hq, hp]
  · intro tn cols src row j n k htn hcol hbody hrow hk
    simp [get_indexes_with_params, htn, hcol, hbody, hrow, hk]
    rcases config.sharding_index (SqlParam.i64 k) with e | r <;> rfl
  · intro tn cols src row j e htn hcol hbody hrow hid hnum
    cases e with
    | identifier id =>
      refine ⟨"Ident must starts with ?, received " ++ id, ?_⟩
      simp [get_indexes_with_params, htn, hcol, hbody, hrow, hid id rfl]
    | value v =>
      cases v with
      | number n =>
        refine ⟨"Parse number error in sql router", ?_⟩
        simp [get_indexes_with_params, htn, hcol, hbody, hrow, hnum n rfl]
      | otherValue =>
        refine ⟨"Expect number type of sharding column in VALUES", ?_⟩
        simp [get_indexes_with_params, htn, hcol, hbody, hrow]
    | wildcard =>
      refine ⟨"Expect id or value, received other expr", ?_⟩
      simp [get_indexes_with_params, htn, hcol, hbody, hrow]
    | function name args =>
      refine ⟨"Expect id or value, received other expr", ?_⟩
      simp [get_indexes_with_params, htn, hcol, hbody, hrow]
    | otherExpr =>
      refine ⟨"Expect id or value, received other expr", ?_⟩
      simp [get_indexes_with_params, htn, hcol, hbody, hrow]

/-- C5 witness: `INSERT INTO user (id, name) VALUES (?1, ?2)` with bound
parameter `I64(4)` routes to shard `0`; the literal form `VALUES (5, ...)`
routes to shard `1`; a `SELECT` fans out to `[0, 1]`. -/
theorem router_routing_policy_witness :
    get_indexes_with_params sampleConfig
        (Statement.insert ["user"] ["id", "name"]
          { body := SetExpr.values [[Expr.identifier "?1", Expr.identifier "?2"]],
            order_by := [], limit := none, offset := none })
        [SqlParam.i64 4, SqlParam.string "name4"]
      = .ok [0] ∧
    get_indexes_with_params sampleConfig
        (Statement.insert ["user"] ["id", "name"]
          { body := SetExpr.values
              [[Expr.value (Value.number "5"), Expr.identifier "?2"]],
            order_by := [], limit := none, offset := none })
        []
      = .ok [1] ∧
    get_indexes_with_params sampleConfig
        (Statement.query
          { body := SetExpr.otherSetExpr, order_by := [], limit := none, offset := none })
        []
      = .ok [0, 1] := by
  have h := router_routing_policy sampleConfig [SqlParam.i64 4, SqlParam.string "name4"]
  have h2 := router_routing_policy sampleConfig []
  refine ⟨?_, ?_, ?_⟩
  · have := h.2.2.2.2.1 ["user"] ["id", "name"]
      { body := SetExpr.values [[Expr.identifier "?1", Expr.identifier "?2"]],
        order_by := [], limit := none, offset := none }
      [Expr.identifier "?1", Expr.identifier "?2"] 0 "?1" (SqlParam.i64 4)
      (by rfl) (by decide) (by rfl) (by rfl) (by decide) (by rfl)
    simpa [sampleConfig] using this
  · have := h2.2.2.2.2.2.2.1 ["user"] ["id", "name"]
      { body := SetExpr.values [[Expr.value (Value.number "5"), Expr.identifier "?2"]],
        order_by := [], limit := none, offset := none }
      [Expr.value (Value.number "5"), Expr.identifier "?2"] 0 "5" 5
      (by rfl) (by decide) (by rfl) (by rfl) (by decide)
    simpa [sampleConfig] using this
  · have := h2.1
      { body := SetExpr.otherSetExpr, order_by := [], limit := none, offset := none }
    simpa using this

/-! ### The printable fragment and the print/parse round trip -/

/-- Order-by lists in the image of the fragment parser: empty, or a single
bare-identifier term with optional direction. -/
inductive OrderWF : List OrderByExpr → Prop
  | nil : OrderWF []
  | single (c : String) (a : Option Bool) :
      OrderWF [{ expr := Expr.identifier c, asc := a }]

/-- Insert value expressions that render to tokens: bare identifiers
(placeholders) and numeric literals. -/
inductive ExprWF : Expr → Prop
  | ident (s : String) : ExprWF (Expr.identifier s)
  | num (n : String) : ExprWF (Expr.value (Value.number n))

/-- Statements in the image of `parseStmt`. -/
inductive StmtWF : Statement → Prop
  | query (names : List String) (t : String) (ob : List OrderByExpr)
      (lim off : Option String) :
      names ≠ [] → OrderWF ob →
      StmtWF (Statement.query
        { body := SetExpr.select
            { projection := names.map (fun s => SelectItem.unnamedExpr (Expr.identifier s)),
              fromTables := [t] },
          order_by := ob,
          limit := lim.map (fun n => Expr.value (Value.number n)),
          offset := off.map (fun n => Expr.value (Value.number n)) })
  | insert (t : String) (cols : List String) (row : List Expr) :
      cols ≠ [] → row ≠ [] → (∀ e ∈ row, ExprWF e) →
      StmtWF (Statement.insert [t] cols
        { body := SetExpr.values [row], order_by := [], limit := none, offset := none })

theorem parseCommaIdents_ne_nil (toks : List Tok) {names : List String} {rest : List Tok}
    (h : parseCommaIdents toks = .ok (names, rest)) : names ≠ [] := by
  unfold parseCommaIdents at h
  split at h
  · split at h
    · split at h
      · simp at h
      · simp at h
        simp [← h.1]
    · simp at h
      simp [← h.1]
  · simp at h

theorem parseCommaExprs_wf :
    ∀ (N : Nat) (toks : List Tok), toks.length ≤ N → ∀ {row : List Expr} {rest : List Tok},
    parseCommaExprs toks = .ok (row, rest) → row ≠ [] ∧ ∀ e ∈ row, ExprWF e := by
  intro N
  induction N with
  | zero =>
    intro toks hlen row rest h
    have : toks = [] := List.length_eq_zero.mp (by omega)
    subst this
    simp [parseCommaExprs] at h
  | succ N ih =>
    intro toks hlen row rest h
    unfold parseCommaExprs at h
    split at h
    · rename_i s rest1
      split at h
      · rename_i rest2
        split at h
        · simp at h
        · rename_i l r heq
          simp at h
          obtain ⟨ih1, ih2⟩ := ih rest2 (by simp at hlen; omega) heq
          rw [← h.1]
          refine ⟨by simp, ?_⟩
          intro e he
          rcases List.mem_cons.mp he with he | he
          · subst he; exact ExprWF.ident s
          · exact ih2 e he
      · simp at h
        rw [← h.1]
        exact ⟨by simp, by intro e he; simp at he; subst he; exact ExprWF.ident s⟩
    · rename_i s rest1
      split at h
      · rename_i rest2
        split at h
        · simp at h
        · rename_i l r heq
          simp at h
          obtain ⟨ih1, ih2⟩ := ih rest2 (by simp at hlen; omega) heq
          rw [← h.1]
          refine ⟨by simp, ?_⟩
          intro e he
          rcases List.mem_cons.mp he with he | he
          · subst he; exact ExprWF.num s
          · exact ih2 e he
      · simp at h
        rw [← h.1]
        exact ⟨by simp, by intro e he; simp at he; subst he; exact ExprWF.num s⟩
    · simp at h

theorem parseOrderClause_wf (toks : List Tok) : OrderWF (parseOrderClause toks).1 := by
  unfold parseOrderClause
  split
  · exact OrderWF.single _ _
  · exact OrderWF.single _ _
  · exact OrderWF.single _ _
  · exact OrderWF.nil

theorem parse_stmt_wf {toks : List Tok} {ast : Statement}
    (h : parseStmt toks = .ok ast) : StmtWF ast := by
  unfold parseStmt at h
  split at h
  · -- SELECT
    split at h
    · simp at h
    · rename_i names r1 hci
      split at h
      · rename_i t r2
        split at h
        · rename_i ob r3 hoc
          split at h
          · rename_i lim r4 hlc
            split at h
            · rename_i off r5 hofc
              split at h
              · simp at h
                subst h
                refine StmtWF.query names t ob lim off
                  (parseCommaIdents_ne_nil _ hci) ?_
                have := parseOrderClause_wf r2
                rw [hoc] at this
                exact this
              · simp at h
      · simp at h
  · -- INSERT
    split at h
    · simp at h
    · rename_i cols r1 hci
      split at h
      · rename_i r2
        split at h
        · simp at h
        · rename_i row r3 hce
          split at h
          · simp at h
            subst h
            obtain ⟨hrow, hwf⟩ := parseCommaExprs_wf r2.length r2 (le_refl _) hce
            exact StmtWF.insert _ _ _ (parseCommaIdents_ne_nil _ hci) hrow hwf
          · simp at h
      · simp at h
  · simp at h

/-- Clearing limit/offset stays inside the printable fragment. -/
theorem clear_stmt_wf {ast : Statement} (h : StmtWF ast) :
    StmtWF (clearStatement ast) := by
  cases h with
  | query names t ob lim off hn hob =>
    have : clearStatement (Statement.query
        { body := SetExpr.select
            { projection := names.map (fun s => SelectItem.unnamedExpr (Expr.identifier s)),
              fromTables := [t] },
          order_by := ob,
          limit := lim.map (fun n => Expr.value (Value.number n)),
          offset := off.map (fun n => Expr.value (Value.number n)) })
        = Statement.query
        { body := SetExpr.select
            { projection := names.map (fun s => SelectItem.unnamedExpr (Expr.identifier s)),
              fromTables := [t] },
          order_by := ob,
          limit := (none : Option String).map (fun n => Expr.value (Value.number n)),
          offset := (none : Option String).map (fun n => Expr.value (Value.number n)) } := rfl
    rw [this]
    exact StmtWF.query names t ob none none hn hob
  | insert t cols row hc hr hwf =>
    exact StmtWF.insert t cols row hc hr hwf

theorem printCommaItems_idents (names : List String) :
    printCommaItems (names.map (fun s => SelectItem.unnamedExpr (Expr.identifier s)))
      = printCommaIdents names := by
  induction names with
  | nil => rfl
  | cons s others ih =>
    cases others with
    | nil => rfl
    | cons s2 o2 =>
      have h1 : printCommaItems ((s :: s2 :: o2).map
          (fun s => SelectItem.unnamedExpr (Expr.identifier s)))
          = printItemTok (SelectItem.unnamedExpr (Expr.identifier s)) ++
            Tok.comma :: printCommaItems ((s2 :: o2).map
              (fun s => SelectItem.unnamedExpr (Expr.identifier s))) := rfl
      rw [h1, ih]
      rfl

theorem parseCommaIdents_print (names : List String) (rest : List Tok)
    (hn : names ≠ []) (hr : rest.head? ≠ some Tok.comma) :
    parseCommaIdents (printCommaIdents names ++ rest) = .ok (names, rest) := by
  induction names with
  | nil => exact absurd rfl hn
  | cons s others ih =>
    cases others with
    | nil =>
      show parseCommaIdents (Tok.ident s :: rest) = .ok ([s], rest)
      cases rest with
      | nil => rfl
      | cons r rs =>
        cases r <;> first
          | rfl
          | (exfalso; exact hr rfl)
    | cons s2 o2 =>
      have h1 : printCommaIdents (s :: s2 :: o2) ++ rest
          = Tok.ident s :: Tok.comma :: (printCommaIdents (s2 :: o2) ++ rest) := rfl
      rw [h1]
      have h2 := ih (by simp)
      simp only [parseCommaIdents, h2]

theorem parseCommaExprs_print (row : List Expr) (rest : List Tok)
    (hn : row ≠ []) (hwf : ∀ e ∈ row, ExprWF e) (hr : rest.head? ≠ some Tok.comma) :
    parseCommaExprs (printCommaExprs row ++ rest) = .ok (row, rest) := by
  induction row with
  | nil => exact absurd rfl hn
  | cons e others ih =>
    have hwe : ExprWF e := hwf e (by simp)
    cases others with
    | nil =>
      cases hwe with
      | ident s =>
        show parseCommaExprs (Tok.ident s :: rest) = .ok ([Expr.identifier s], rest)
        cases rest with
        | nil => rfl
        | cons r rs =>
          cases r <;> first
            | rfl
            | (exfalso; exact hr rfl)
      | num n =>
        show parseCommaExprs (Tok.num n :: rest) = .ok ([Expr.value (Value.number n)], rest)
        cases rest with
        | nil => rfl
        | cons r rs =>
          cases r <;> first
            | rfl
            | (exfalso; exact hr rfl)
    | cons e2 o2 =>
      have h2 := ih (by simp) (fun x hx => hwf x (by simp [hx]))
      cases hwe with
      | ident s =>
        have h1 : printCommaExprs (Expr.identifier s :: e2 :: o2) ++ rest
            = Tok.ident s :: Tok.comma :: (printCommaExprs (e2 :: o2) ++ rest) := rfl
        rw [h1]
        simp only [parseCommaExprs, h2]
      | num n =>
        have h1 : printCommaExprs (Expr.value (Value.number n) :: e2 :: o2) ++ rest
            = Tok.num n :: Tok.comma :: (printCommaExprs (e2 :: o2) ++ rest) := rfl
        rw [h1]
        simp only [parseCommaExprs, h2]

theorem parseOrderClause_skip (rest : List Tok)
    (h : rest.head? ≠ some Tok.kwORDER) : parseOrderClause rest = ([], rest) := by
  unfold parseOrderClause
  split
  · exact absurd rfl h
  · exact absurd rfl h
  · exact absurd rfl h
  · rfl

theorem parseOrderClause_print (ob : List OrderByExpr) (rest : List Tok)
    (hob : OrderWF ob)
    (hr1 : rest.head? ≠ some Tok.kwORDER)
    (hr2 : rest.head? ≠ some Tok.kwASC)
    (hr3 : rest.head? ≠ some Tok.kwDESC) :
    parseOrderClause (printOrderClause ob ++ rest) = (ob, rest) := by
  cases hob with
  | nil => exact parseOrderClause_skip rest hr1
  | single c a =>
    cases a with
    | none =>
      show parseOrderClause (Tok.kwORDER :: Tok.kwBY :: Tok.ident c :: rest) = _
      cases rest with
      | nil => rfl
      | cons r rs =>
        cases r <;> first
          | rfl
          | (exfalso; exact hr2 rfl)
          | (exfalso; exact hr3 rfl)
    | some b =>
      cases b with
      | true => rfl
      | false => rfl

theorem parseLimitClause_skip (rest : List Tok)
    (h : rest.head? ≠ some Tok.kwLIMIT) : parseLimitClause rest = (none, rest) := by
  unfold parseLimitClause
  split
  · exact absurd rfl h
  · rfl

theorem parseOffsetClause_skip (rest : List Tok)
    (h : rest.head? ≠ some Tok.kwOFFSET) : parseOffsetClause rest = (none, rest) := by
  unfold parseOffsetClause
  split
  · exact absurd rfl h
  · rfl

theorem parse_print_roundtrip {ast : Statement} (h : StmtWF ast) :
    parseStmt (printStmt ast) = .ok ast := by
  cases h with
  | query names t ob lim off hn hob =>
    have hprint : printStmt (Statement.query
        { body := SetExpr.select
            { projection := names.map (fun s => SelectItem.unnamedExpr (Expr.identifier s)),
              fromTables := [t] },
          order_by := ob,
          limit := lim.map (fun n => Expr.value (Value.number n)),
          offset := off.map (fun n => Expr.value (Value.number n)) })
        = Tok.kwSELECT :: (printCommaIdents names ++
            (Tok.kwFROM :: Tok.ident t ::
              (printOrderClause ob ++
                (printLimitClause (lim.map (fun n => Expr.value (Value.number n))) ++
                  (printOffsetClause (off.map (fun n => Expr.value (Value.number n)))
                    ++ []))))) := by
      simp [printStmt, printFromClause, printCommaItems_idents, List.append_assoc]
    rw [hprint]
    have hci := parseCommaIdents_print names
      (Tok.kwFROM :: Tok.ident t ::
        (printOrderClause ob ++
          (printLimitClause (lim.map (fun n => Expr.value (Value.number n))) ++
            (printOffsetClause (off.map (fun n => Expr.value (Value.number n))) ++ []))))
      hn (by simp)
    have hlo : (printLimitClause (lim.map (fun n => Expr.value (Value.number n))) ++
        (printOffsetClause (off.map (fun n => Expr.value (Value.number n))) ++ [])).head?
        ≠ some Tok.kwORDER ∧
        (printLimitClause (lim.map (fun n => Expr.value (Value.number n))) ++
        (printOffsetClause (off.map (fun n => Expr.value (Value.number n))) ++ [])).head?
        ≠ some Tok.kwASC ∧
        (printLimitClause (lim.map (fun n => Expr.value (Value.number n))) ++
        (printOffsetClause (off.map (fun n => Expr.value (Value.number n))) ++ [])).head?
        ≠ some Tok.kwDESC := by
      cases lim <;> cases off <;>
        simp [printLimitClause, printOffsetClause]
    have hoc := parseOrderClause_print ob
      (printLimitClause (lim.map (fun n => Expr.value (Value.number n))) ++
        (printOffsetClause (off.map (fun n => Expr.value (Value.number n))) ++ []))
      hob hlo.1 hlo.2.1 hlo.2.2
    have hlc : parseLimitClause
        (printLimitClause (lim.map (fun n => Expr.value (Value.number n))) ++
          (printOffsetClause (off.map (fun n => Expr.value (Value.number n))) ++ []))
        = (lim, printOffsetClause (off.map (fun n => Expr.value (Value.number n))) ++ []) := by
      cases lim with
      | none =>
        refine parseLimitClause_skip _ ?_
        cases off <;> simp [printOffsetClause, printLimitClause]
      | some n => rfl
    have hofc : parseOffsetClause
        (printOffsetClause (off.map (fun n => Expr.value (Value.number n))) ++ [])
        = (off, []) := by
      cases off with
      | none => exact parseOffsetClause_skip _ (by simp [printOffsetClause])
      | some n => rfl
    simp only [parseStmt, hci, hoc, hlc, hofc]
  | insert t cols row hc hr hwf =>
    have hprint : printStmt (Statement.insert [t] cols
        { body := SetExpr.values [row], order_by := [], limit := none, offset := none })
        = Tok.kwINSERT :: Tok.kwINTO :: Tok.ident t :: Tok.lparen ::
          (printCommaIdents cols ++
            (Tok.rparen :: Tok.kwVALUES :: Tok.lparen ::
              (printCommaExprs row ++ [Tok.rparen]))) := by
      simp [printStmt, List.append_assoc]
    rw [hprint]
    have hci := parseCommaIdents_print cols
      (Tok.rparen :: Tok.kwVALUES :: Tok.lparen :: (printCommaExprs row ++ [Tok.rparen]))
      hc (by simp)
    have hce := parseCommaExprs_print row [Tok.rparen] hr hwf (by simp)
    simp only [parseStmt, hci, hce]

theorem clearStatement_idem (ast : Statement) :
    clearStatement (clearStatement ast) = clearStatement ast := by
  cases ast <;> rfl

theorem mem_printCommaIdents {x : Tok} {names : List String}
    (h : x ∈ printCommaIdents names) : (∃ s, x = Tok.ident s) ∨ x = Tok.comma := by
  induction names with
  | nil => simp [printCommaIdents] at h
  | cons s others ih =>
    cases others with
    | nil =>
      simp [printCommaIdents] at h
      exact Or.inl ⟨s, h⟩
    | cons s2 o2 =>
      have hpc : printCommaIdents (s :: s2 :: o2)
          = Tok.ident s :: Tok.comma :: printCommaIdents (s2 :: o2) := rfl
      rw [hpc] at h
      simp at h
      rcases h with h | h | h
      · exact Or.inl ⟨s, h⟩
      · exact Or.inr h
      · exact ih h

theorem limit_tokens_not_in_cleared (names : List String) (t : String)
    (ob : List OrderByExpr) (hob : OrderWF ob) :
    Tok.kwLIMIT ∉ printStmt (Statement.query
      { body := SetExpr.select
          { projection := names.map (fun s => SelectItem.unnamedExpr (Expr.identifier s)),
            fromTables := [t] },
        order_by := ob, limit := none, offset := none }) ∧
    Tok.kwOFFSET ∉ printStmt (Statement.query
      { body := SetExpr.select
          { projection := names.map (fun s => SelectItem.unnamedExpr (Expr.identifier s)),
            fromTables := [t] },
        order_by := ob, limit := none, offset := none }) := by
  have hp : printStmt (Statement.query
      { body := SetExpr.select
          { projection := names.map (fun s => SelectItem.unnamedExpr (Expr.identifier s)),
            fromTables := [t] },
        order_by := ob, limit := none, offset := none })
      = Tok.kwSELECT :: (printCommaIdents names ++
          (Tok.kwFROM :: Tok.ident t :: printOrderClause ob)) := by
    simp [printStmt, printFromClause, printCommaItems_idents, printLimitClause,
      printOffsetClause, List.append_assoc]
  rw [hp]
  constructor
  · intro hmem
    simp at hmem
    rcases hmem with hmem | hmem
    · rcases mem_printCommaIdents hmem with ⟨s, hs⟩ | hs <;> simp at hs
    · cases hob with
      | nil => simp [printOrderClause] at hmem
      | single c a =>
        rcases a with _ | b
        · simp [printOrderClause] at hmem
        · cases b <;> simp [printOrderClause] at hmem
  · intro hmem
    simp at hmem
    rcases hmem with hmem | hmem
    · rcases mem_printCommaIdents hmem with ⟨s, hs⟩ | hs <;> simp at hs
    · cases hob with
      | nil => simp [printOrderClause] at hmem
      | single c a =>
        rcases a with _ | b
        · simp [printOrderClause] at hmem
        · cases b <;> simp [printOrderClause] at hmem

/-- C6: `ReWriter::rewrite` renders the statement with `limit` and `offset`
cleared when it is a `Query`, and renders the statement unchanged
otherwise; rewriting is idempotent — parsing the rewritten text and
rewriting again yields the same text — and when the statement is a `Query`
the rewritten SQL contains no LIMIT or OFFSET token. -/
theorem rewrite_spec (toks : List Tok) (ast : Statement)
    (hp : parseStmt toks = .ok ast) :
    (∀ q, ast = Statement.query q →
      ReWriter.rewrite ast
        = printStmt (Statement.query { q with limit := none, offset := none })) ∧
    (∀ tn cols src, ast = Statement.insert tn cols src →
      ReWriter.rewrite ast = printStmt ast) ∧
    (∃ ast2, parseStmt (ReWriter.rewrite ast) = .ok ast2 ∧
      ReWriter.rewrite ast2 = ReWriter.rewrite ast) ∧
    (∀ q, ast = Statement.query q →
      Tok.kwLIMIT ∉ ReWriter.rewrite ast ∧ Tok.kwOFFSET ∉ ReWriter.rewrite ast) := by
  have hwf := parse_stmt_wf hp
  refine ⟨?_, ?_, ?_, ?_⟩
  · intro q hq
    subst hq
    rfl
  · intro tn cols src hq
    subst hq
    rfl
  · refine ⟨clearStatement ast, ?_, ?_⟩
    · exact parse_print_roundtrip (clear_stmt_wf hwf)
    · show printStmt (clearStatement (clearStatement ast)) = printStmt (clearStatement ast)
      rw [clearStatement_idem]
  · intro q hq
    subst hq
    cases hwf with
    | query names t ob lim off hn hob =>
      exact limit_tokens_not_in_cleared names t ob hob

/-- C6 witness: `SELECT a FROM t LIMIT 1 OFFSET 2` rewrites to
`SELECT a FROM t`, reparsing and rewriting again is stable, and the
rewritten text has no LIMIT/OFFSET token. -/
theorem rewrite_spec_witness :
    ReWriter.rewrite (Statement.query
      { body := SetExpr.select
          { projection := [SelectItem.unnamedExpr (Expr.identifier "a")],
            fromTables := ["t"] },
        order_by := [],
        limit := some (Expr.value (Value.number "1")),
        offset := some (Expr.value (Value.number "2")) })
      = [Tok.kwSELECT, Tok.ident "a", Tok.kwFROM, Tok.ident "t"] ∧
    (∃ ast2, parseStmt (ReWriter.rewrite (Statement.query
      { body := SetExpr.select
          { projection := [SelectItem.unnamedExpr (Expr.identifier "a")],
            fromTables := ["t"] },
        order_by := [],
        limit := some (Expr.value (Value.number "1")),
        offset := some (Expr.value (Value.number "2")) })) = .ok ast2 ∧
      ReWriter.rewrite ast2 = ReWriter.rewrite (Statement.query
      { body := SetExpr.select
          { projection := [SelectItem.unnamedExpr (Expr.identifier "a")],
            fromTables := ["t"] },
        order_by := [],
        limit := some (Expr.value (Value.number "1")),
        offset := some (Expr.value (Value.number "2")) })) := by
  have h := rewrite_spec
    [Tok.kwSELECT, Tok.ident "a", Tok.kwFROM, Tok.ident "t",
     Tok.kwLIMIT, Tok.num "1", Tok.kwOFFSET, Tok.num "2"]
    (Statement.query
      { body := SetExpr.select
          { projection := [SelectItem.unnamedExpr (Expr.identifier "a")],
            fromTables := ["t"] },
        order_by := [],
        limit := some (Expr.value (Value.number "1")),
        offset := some (Expr.value (Value.number "2")) })
    rfl
  exact ⟨rfl, h.2.2.1⟩

/-- C1 counterexample: for the accepted text `SELECT a FROM t LIMIT 1`,
`ShardingIte::prepare` broadcasts the rewritten text with the LIMIT clause
cleared, while `Transaction::prepare` broadcasts the original text
unchanged; the two Prepare payloads differ. -/
theorem transaction_prepare_counterexample :
    transactionPreparePayload
        [Tok.kwSELECT, Tok.ident "a", Tok.kwFROM, Tok.ident "t",
         Tok.kwLIMIT, Tok.num "1"]
      = .ok [Tok.kwSELECT, Tok.ident "a", Tok.kwFROM, Tok.ident "t",
             Tok.kwLIMIT, Tok.num "1"] ∧
    coordinatorPreparePayload
        [Tok.kwSELECT, Tok.ident "a", Tok.kwFROM, Tok.ident "t",
         Tok.kwLIMIT, Tok.num "1"]
      = .ok [Tok.kwSELECT, Tok.ident "a", Tok.kwFROM, Tok.ident "t"] ∧
    transactionPreparePayload
        [Tok.kwSELECT, Tok.ident "a", Tok.kwFROM, Tok.ident "t",
         Tok.kwLIMIT, Tok.num "1"]
      ≠ coordinatorPreparePayload
        [Tok.kwSELECT, Tok.ident "a", Tok.kwFROM, Tok.ident "t",
         Tok.kwLIMIT, Tok.num "1"] := by
  refine ⟨rfl, rfl, ?_⟩
  intro hcontra
  rw [show transactionPreparePayload
        [Tok.kwSELECT, Tok.ident "a", Tok.kwFROM, Tok.ident "t",
         Tok.kwLIMIT, Tok.num "1"]
      = .ok [Tok.kwSELECT, Tok.ident "a", Tok.kwFROM, Tok.ident "t",
             Tok.kwLIMIT, Tok.num "1"] from rfl,
    show coordinatorPreparePayload
        [Tok.kwSELECT, Tok.ident "a", Tok.kwFROM, Tok.ident "t",
         Tok.kwLIMIT, Tok.num "1"]
      = .ok [Tok.kwSELECT, Tok.ident "a", Tok.kwFROM, Tok.ident "t"] from rfl]
    at hcontra
  simp at hcontra

/-- C1 (amended): `Transaction::prepare` broadcasts the ORIGINAL input
text (it performs no rewrite), while `ShardingIte::prepare` broadcasts the
rewritten text; the two Prepare payloads coincide exactly when the input
text already equals its rewritten rendering, and they differ whenever the
accepted statement is a Query carrying a LIMIT or OFFSET clause. -/
theorem transaction_prepare_sends_original (toks : List Tok) (ast : Statement)
    (hp : parseStmt toks = .ok ast) :
    transactionPreparePayload toks = .ok toks ∧
    coordinatorPreparePayload toks = .ok (ReWriter.rewrite ast) ∧
    (transactionPreparePayload toks = coordinatorPreparePayload toks ↔
      toks = ReWriter.rewrite ast) ∧
    (∀ q, ast = Statement.query q → (q.limit ≠ none ∨ q.offset ≠ none) →
      transactionPreparePayload toks ≠ coordinatorPreparePayload toks) := by
  have ht : transactionPreparePayload toks = .ok toks := by
    unfold transactionPreparePayload
    rw [hp]
  have hc : coordinatorPreparePayload toks = .ok (ReWriter.rewrite ast) := by
    unfold coordinatorPreparePayload
    rw [hp]
  refine ⟨ht, hc, ?_, ?_⟩
  · rw [ht, hc]
    constructor
    · intro h
      injection h
    · intro h
      rw [← h]
  · intro q hq hlim heq
    rw [ht, hc] at heq
    injection heq with heq
    have hwf := parse_stmt_wf hp
    have hrr : parseStmt (ReWriter.rewrite ast) = .ok (clearStatement ast) :=
      parse_print_roundtrip (clear_stmt_wf hwf)
    rw [← heq, hp] at hrr
    injection hrr with hrr
    rw [hq] at hrr
    have hrr2 : Statement.query q
        = Statement.query { q with limit := none, offset := none } := hrr
    injection hrr2 with h3
    rcases hlim with hl | hl
    · apply hl
      rw [h3]
    · apply hl
      rw [h3]

/-- C1 (amended) witness: at `SELECT a FROM t LIMIT 1`, the transaction
payload is the original text and differs from the coordinator payload. -/
theorem transaction_prepare_sends_original_witness :
    transactionPreparePayload
        [Tok.kwSELECT, Tok.ident "a", Tok.kwFROM, Tok.ident "t",
         Tok.kwLIMIT, Tok.num "1"]
      = .ok [Tok.kwSELECT, Tok.ident "a", Tok.kwFROM, Tok.ident "t",
             Tok.kwLIMIT, Tok.num "1"] ∧
    transactionPreparePayload
        [Tok.kwSELECT, Tok.ident "a", Tok.kwFROM, Tok.ident "t",
         Tok.kwLIMIT, Tok.num "1"]
      ≠ coordinatorPreparePayload
        [Tok.kwSELECT, Tok.ident "a", Tok.kwFROM, Tok.ident "t",
         Tok.kwLIMIT, Tok.num "1"] := by
  have h := transaction_prepare_sends_original
    [Tok.kwSELECT, Tok.ident "a", Tok.kwFROM, Tok.ident "t",
     Tok.kwLIMIT, Tok.num "1"]
    (Statement.query
      { body := SetExpr.select
          { projection := [SelectItem.unnamedExpr (Expr.identifier "a")],
            fromTables := ["t"] },
        order_by := [],
        limit := some (Expr.value (Value.number "1")),
        offset := none })
    rfl
  exact ⟨h.1, h.2.2.2 _ rfl (Or.inl (by simp))⟩

/-! ### Projection-scan lemmas for the order-by column lookup -/

theorem findAux_cons_ident (c s : String) (i : Nat) (rest : List SelectItem) :
    findColumnIndexAux c i (SelectItem.unnamedExpr (Expr.identifier s) :: rest)
      = if s = c then .ok (i % 256) else findColumnIndexAux c (i + 1) rest := rfl

theorem findAux_not_found (c : String) :
    ∀ (items : List SelectItem) (i : Nat),
    (∀ it ∈ items, ∃ s, it = SelectItem.unnamedExpr (Expr.identifier s)) →
    SelectItem.unnamedExpr (Expr.identifier c) ∉ items →
    findColumnIndexAux c i items = .error ("Column '" ++ c ++ "' not found in select") := by
  intro items
  induction items with
  | nil =>
    intro i _ _
    rfl
  | cons it rest ih =>
    intro i hids hnm
    obtain ⟨s, hs⟩ := hids it (by simp)
    subst hs
    have hsc : s ≠ c := by
      intro hsc
      subst hsc
      exact hnm (by simp)
    rw [findAux_cons_ident, if_neg hsc]
    exact ih (i + 1) (fun x hx => hids x (by simp [hx]))
      (fun hmem => hnm (by simp [hmem]))

theorem findAux_match (c : String) :
    ∀ (pre : List SelectItem) (i : Nat) (suf : List SelectItem),
    (∀ it ∈ pre, ∃ s, it = SelectItem.unnamedExpr (Expr.identifier s) ∧ s ≠ c) →
    findColumnIndexAux c i (pre ++ SelectItem.unnamedExpr (Expr.identifier c) :: suf)
      = .ok ((i + pre.length) % 256) := by
  intro pre
  induction pre with
  | nil =>
    intro i suf _
    simp only [List.nil_append]
    rw [findAux_cons_ident, if_pos rfl]
    simp
  | cons it rest ih =>
    intro i suf hids
    obtain ⟨s, hs, hsc⟩ := hids it (by simp)
    subst hs
    have h1 : (SelectItem.unnamedExpr (Expr.identifier s) :: rest) ++
        SelectItem.unnamedExpr (Expr.identifier c) :: suf
        = SelectItem.unnamedExpr (Expr.identifier s) ::
          (rest ++ SelectItem.unnamedExpr (Expr.identifier c) :: suf) := rfl
    rw [h1]
    rw [findAux_cons_ident, if_neg hsc]
    rw [ih (i + 1) suf (fun x hx => hids x (by simp [hx]))]
    have : i + 1 + rest.length = i + (rest.length + 1) := by omega
    rw [this]
    simp

theorem findAux_blocked (c : String) :
    ∀ (pre : List SelectItem) (i : Nat) (bad : SelectItem) (suf : List SelectItem),
    (∀ it ∈ pre, ∃ s, it = SelectItem.unnamedExpr (Expr.identifier s) ∧ s ≠ c) →
    (∀ s, bad ≠ SelectItem.unnamedExpr (Expr.identifier s)) →
    ∃ msg, findColumnIndexAux c i (pre ++ bad :: suf) = .error msg ∧
      (msg = "Currently only supports the unnamed id expr in select" ∨
        msg = "Currently only supports the unnamed expr in select") := by
  intro pre
  induction pre with
  | nil =>
    intro i bad suf _ hbad
    cases bad with
    | unnamedExpr e =>
      cases e with
      | identifier s => exact absurd rfl (hbad s)
      | value v =>
        exact ⟨_, rfl, Or.inl rfl⟩
      | wildcard => exact ⟨_, rfl, Or.inl rfl⟩
      | function name args => exact ⟨_, rfl, Or.inl rfl⟩
      | otherExpr => exact ⟨_, rfl, Or.inl rfl⟩
    | otherItem => exact ⟨_, rfl, Or.inr rfl⟩
  | cons it rest ih =>
    intro i bad suf hids hbad
    obtain ⟨s, hs, hsc⟩ := hids it (by simp)
    subst hs
    have h1 : (SelectItem.unnamedExpr (Expr.identifier s) :: rest) ++ bad :: suf
        = SelectItem.unnamedExpr (Expr.identifier s) :: (rest ++ bad :: suf) := rfl
    rw [h1]
    obtain ⟨msg, hmsg, hor⟩ := ih (i + 1) bad suf
      (fun x hx => hids x (by simp [hx])) hbad
    refine ⟨msg, ?_, hor⟩
    rw [findAux_cons_ident, if_neg hsc]
    exact hmsg

theorem getAggregateAux_idents (n : Nat) :
    ∀ (items : List SelectItem),
    (∀ it ∈ items, ∃ s, it = SelectItem.unnamedExpr (Expr.identifier s)) →
    getAggregateAux n items = .ok none := by
  intro items
  induction items with
  | nil => intro _; rfl
  | cons it rest ih =>
    intro hids
    obtain ⟨s, hs⟩ := hids it (by simp)
    subst hs
    unfold getAggregateAux
    exact ih (fun x hx => hids x (by simp [hx]))

theorem extractOrderBy_some (t : OrderByExpr) (query : QueryAst)
    (h : query.order_by[0]? = some t) :
    extractOrderBy query =
      match (match t.expr with
             | Expr.identifier ident => Except.ok ident
             | _ => Except.error "Expect ident in order expr") with
      | .error e => .error e
      | .ok column_name =>
        match (match query.body with
               | SetExpr.select select => find_column_index_in_select select column_name
               | _ =>
                 .error "Currently only supports the combination of order by and select") with
        | .error e => .error e
        | .ok column_index =>
          .ok (some { column_index := column_index, is_asc := t.asc.getD true }) := by
  unfold extractOrderBy
  rw [h]

theorem extractOrderBy_ident_select (t : OrderByExpr) (query : QueryAst) (c : String)
    (sel : Select) (h : query.order_by[0]? = some t) (hid : t.expr = Expr.identifier c)
    (hbody : query.body = SetExpr.select sel) :
    extractOrderBy query =
      match find_column_index_in_select sel c with
      | .error e => .error e
      | .ok column_index =>
        .ok (some { column_index := column_index, is_asc := t.asc.getD true }) := by
  rw [extractOrderBy_some t query h, hid, hbody]

theorem get_query_from_ast_query (query : QueryAst) :
    get_query_from_ast (Statement.query query) =
      match extractOrderBy query with
      | .error e => .error e
      | .ok order_by =>
        match extractLimitNumber query with
        | .error e => .error e
        | .ok limit_number =>
          match extractOffsetNumber query with
          | .error e => .error e
          | .ok offset_number =>
            let limit : Option Limit :=
              match limit_number with
              | some l => some { limit := l, offset := offset_number.getD 0 }
              | none => none
            match get_aggregate query with
            | .error e => .error e
            | .ok aggregate =>
              .ok { limit := limit, order_by := order_by, aggregate := aggregate } := rfl

/-- C7 counterexample input: `SELECT json_extract(...) FROM t ORDER BY x`
— the order identifier `x` matches no projection item, but the scan aborts
at the function item with an unsupported-shape error, not ColumnNotFound. -/
def c7Ast : Statement :=
  Statement.query
    { body := SetExpr.select
        { projection := [SelectItem.unnamedExpr
            (Expr.function "json_extract" [FuncArg.unnamedOther])],
          fromTables := ["t"] },
      order_by := [{ expr := Expr.identifier "x", asc := none }],
      limit := none, offset := none }

/-- C7 counterexample: on `c7Ast` the identifier `x` matches no projection
item, yet the extraction fails with the unsupported-projection error, not
with `Column 'x' not found in select` as the claim requires. -/
theorem order_by_lookup_counterexample :
    get_query_from_ast c7Ast
        = .error "Currently only supports the unnamed id expr in select" ∧
      get_query_from_ast c7Ast ≠ .error "Column 'x' not found in select" := by
  refine ⟨rfl, ?_⟩
  intro hcontra
  rw [show get_query_from_ast c7Ast
      = .error "Currently only supports the unnamed id expr in select" from rfl] at hcontra
  injection hcontra with hmsg
  exact absurd hmsg (by decide)

/-- C7 (amended): the extracted OrderBy uses only the first ordering term;
extraction fails with an unsupported-shape error when that term's
expression is not a bare identifier, when the body is not a plain SELECT,
or when the projection scan reaches an item that is not a bare unnamed
identifier before finding a match; it fails with ColumnNotFound only when
every projection item is a bare unnamed identifier and none matches; on a
match after an all-identifier prefix the column index is the matching
position truncated `as u8` (modulo 256), and the direction defaults to
ascending when no ASC/DESC is given. -/
theorem order_by_extraction (q : QueryAst) :
    (∀ t rest, q.order_by = t :: rest →
      get_query_from_ast (Statement.query { q with order_by := [t] })
        = get_query_from_ast (Statement.query { q with order_by := t :: rest })) ∧
    (∀ t rest, q.order_by = t :: rest → (∀ s, t.expr ≠ Expr.identifier s) →
      get_query_from_ast (Statement.query q) = .error "Expect ident in order expr") ∧
    (∀ t rest c, q.order_by = t :: rest → t.expr = Expr.identifier c →
      (∀ sel, q.body ≠ SetExpr.select sel) →
      get_query_from_ast (Statement.query q)
        = .error "Currently only supports the combination of order by and select") ∧
    (∀ sel c, (∀ it ∈ sel.projection, ∃ s, it = SelectItem.unnamedExpr (Expr.identifier s)) →
      SelectItem.unnamedExpr (Expr.identifier c) ∉ sel.projection →
      find_column_index_in_select sel c
        = .error ("Column '" ++ c ++ "' not found in select")) ∧
    (∀ sel c pre bad suf, sel.projection = pre ++ bad :: suf →
      (∀ it ∈ pre, ∃ s, it = SelectItem.unnamedExpr (Expr.identifier s) ∧ s ≠ c) →
      (∀ s, bad ≠ SelectItem.unnamedExpr (Expr.identifier s)) →
      ∃ msg, find_column_index_in_select sel c = .error msg ∧
        (msg = "Currently only supports the unnamed id expr in select" ∨
          msg = "Currently only supports the unnamed expr in select")) ∧
    (∀ sel c pre suf,
      sel.projection = pre ++ SelectItem.unnamedExpr (Expr.identifier c) :: suf →
      (∀ it ∈ pre, ∃ s, it = SelectItem.unnamedExpr (Expr.identifier s) ∧ s ≠ c) →
      find_column_index_in_select sel c = .ok (pre.length % 256)) ∧
    (∀ t rest c sel k, q.order_by = t :: rest → t.expr = Expr.identifier c →
      q.body = SetExpr.select sel → q.limit = none → q.offset = none →
      find_column_index_in_select sel c = .ok k →
      (∀ it ∈ sel.projection, ∃ s, it = SelectItem.unnamedExpr (Expr.identifier s)) →
      get_query_from_ast (Statement.query q)
        = .ok { limit := none,
                order_by := some { column_index := k, is_asc := t.asc.getD true },
                aggregate := none }) := by
  refine ⟨?_, ?_, ?_, ?_, ?_, ?_, ?_⟩
  · intro t rest hob
    have e1 : extractOrderBy { q with order_by := [t] }
        = extractOrderBy { q with order_by := t :: rest } := by
      unfold extractOrderBy
      rw [show ({ q with order_by := [t] } : QueryAst).order_by[0]? = some t from by simp,
        show ({ q with order_by := t :: rest } : QueryAst).order_by[0]? = some t from by
          simp]
    have e2 : extractLimitNumber { q with order_by := [t] }
        = extractLimitNumber { q with order_by := t :: rest } := rfl
    have e3 : extractOffsetNumber { q with order_by := [t] }
        = extractOffsetNumber { q with order_by := t :: rest } := rfl
    have e4 : get_aggregate { q with order_by := [t] }
        = get_aggregate { q with order_by := t :: rest } := rfl
    rw [get_query_from_ast_query, get_query_from_ast_query, e1, e2, e3, e4]
  · intro t rest hob hnid
    have h0 : q.order_by[0]? = some t := by
      rw [hob]
      exact List.getElem?_cons_zero
    have hord : extractOrderBy q = .error "Expect ident in order expr" := by
      rw [extractOrderBy_some t q h0]
      cases ht : t.expr with
      | identifier s => exact absurd ht (hnid s)
      | value v => rfl
      | wildcard => rfl
      | function f a => rfl
      | otherExpr => rfl
    rw [get_query_from_ast_query, hord]
  · intro t rest c hob hid hnsel
    have h0 : q.order_by[0]? = some t := by
      rw [hob]
      exact List.getElem?_cons_zero
    have hord : extractOrderBy q
        = .error "Currently only supports the combination of order by and select" := by
      rw [extractOrderBy_some t q h0, hid]
      cases hb : q.body with
      | select sel => exact absurd hb (hnsel sel)
      | values vs => rfl
      | otherSetExpr => rfl
    rw [get_query_from_ast_query, hord]
  · intro sel c hids hnm
    exact findAux_not_found c sel.projection 0 hids hnm
  · intro sel c pre bad suf hproj hpre hbad
    unfold find_column_index_in_select
    rw [hproj]
    exact findAux_blocked c pre 0 bad suf hpre hbad
  · intro sel c pre suf hproj hpre
    unfold find_column_index_in_select
    rw [hproj]
    have := findAux_match c pre 0 suf hpre
    simpa using this
  · intro t rest c sel k hob hid hbody hlim hoff hfind hids
    have h0 : q.order_by[0]? = some t := by
      rw [hob]
      exact List.getElem?_cons_zero
    have hord : extractOrderBy q
        = .ok (some { column_index := k, is_asc := t.asc.getD true }) := by
      rw [extractOrderBy_ident_select t q c sel h0 hid hbody, hfind]
    have hlimn : extractLimitNumber q = .ok none := by
      unfold extractLimitNumber
      rw [hlim]
    have hoffn : extractOffsetNumber q = .ok none := by
      unfold extractOffsetNumber
      rw [hoff]
    have hagg : get_aggregate q = .ok none := by
      unfold get_aggregate
      rw [hbody]
      exact getAggregateAux_idents _ _ hids
    rw [get_query_from_ast_query, hord, hlimn, hoffn, hagg]

/-- C7 (amended) witness: `SELECT id, name FROM t ORDER BY name` yields
column index 1 with default ascending direction; looking up a missing
column in an all-identifier projection is ColumnNotFound. -/
theorem order_by_extraction_witness :
    get_query_from_ast (Statement.query
      { body := SetExpr.select
          { projection := [SelectItem.unnamedExpr (Expr.identifier "id"),
                           SelectItem.unnamedExpr (Expr.identifier "name")],
            fromTables := ["t"] },
        order_by := [{ expr := Expr.identifier "name", asc := none }],
        limit := none, offset := none })
      = .ok { limit := none,
              order_by := some { column_index := 1, is_asc := true },
              aggregate := none } ∧
    find_column_index_in_select
        { projection := [SelectItem.unnamedExpr (Expr.identifier "id")],
          fromTables := ["t"] } "zzz"
      = .error "Column 'zzz' not found in select" := by
  have h := order_by_extraction
    { body := SetExpr.select
        { projection := [SelectItem.unnamedExpr (Expr.identifier "id"),
                         SelectItem.unnamedExpr (Expr.identifier "name")],
          fromTables := ["t"] },
      order_by := [{ expr := Expr.identifier "name", asc := none }],
      limit := none, offset := none }
  constructor
  · refine h.2.2.2.2.2.2 { expr := Expr.identifier "name", asc := none } [] "name"
      { projection := [SelectItem.unnamedExpr (Expr.identifier "id"),
                       SelectItem.unnamedExpr (Expr.identifier "name")],
        fromTables := ["t"] } 1 rfl rfl rfl rfl rfl ?_ ?_
    · exact h.2.2.2.2.2.1
        { projection := [SelectItem.unnamedExpr (Expr.identifier "id"),
                         SelectItem.unnamedExpr (Expr.identifier "name")],
          fromTables := ["t"] } "name"
        [SelectItem.unnamedExpr (Expr.identifier "id")] [] rfl
        (by
          intro it hit
          simp at hit
          subst hit
          exact ⟨"id", rfl, by decide⟩)
    · intro it hit
      simp at hit
      rcases hit with hit | hit
      · subst hit; exact ⟨"id", rfl⟩
      · subst hit; exact ⟨"name", rfl⟩
  · exact h.2.2.2.1
      { projection := [SelectItem.unnamedExpr (Expr.identifier "id")],
        fromTables := ["t"] } "zzz"
      (by
        intro it hit
        simp at hit
        subst hit
        exact ⟨"id", rfl⟩)
      (by
        intro hmem
        simp at hmem)

/-! ## C3: the ordered merge emits a sorted permutation (lib.rs:495) -/

/-- Integer value of the order column of a row: the value `HeapData` is
keyed by (`row.get::<i64>(column_index)`, lib.rs:566).  Defaults to `0` on
a missing or non-integer cell, which never occurs under the merge's
preconditions. -/
def keyOf (c : Nat) (row : SqlRow) : Int :=
  match row[c]? with
  | some (SqlValue.integer n) => n
  | _ => 0

/-- The cell at index `c` exists and holds an `Integer`: the well-typing
condition `Rows::next_heap_data` imposes on every merged row. -/
def isIntCell (c : Nat) (row : SqlRow) : Bool :=
  match row[c]? with
  | some (SqlValue.integer _) => true
  | _ => false

theorem isIntCell_spec {c : Nat} {row : SqlRow} (h : isIntCell c row = true) :
    row[c]? = some (SqlValue.integer (keyOf c row)) := by
  unfold isIntCell at h
  unfold keyOf
  cases hc : row[c]? with
  | none => rw [hc] at h; simp at h
  | some v =>
    cases v with
    | integer n => rfl
    | null => rw [hc] at h; simp at h
    | real b => rw [hc] at h; simp at h
    | text b => rw [hc] at h; simp at h
    | blob b => rw [hc] at h; simp at h

theorem chain_trans_head {α : Type} {R : α → α → Prop}
    (htrans : ∀ a b c, R a b → R b c → R a c) :
    ∀ {l : List α} {a : α}, List.Chain' R (a :: l) → ∀ b ∈ l, R a b := by
  intro l
  induction l with
  | nil =>
    intro a _ b hb
    simp at hb
  | cons x xs ih =>
    intro a h b hb
    have hax : R a x := (List.chain'_cons.mp h).1
    have hx := (List.chain'_cons.mp h).2
    rcases List.mem_cons.mp hb with hb | hb
    · subst hb; exact hax
    · exact htrans a x b hax (ih hx b hb)

theorem chain_trans_pairwise {α : Type} {R : α → α → Prop}
    (htrans : ∀ a b c, R a b → R b c → R a c) :
    ∀ {l : List α}, List.Chain' R l → List.Pairwise R l := by
  intro l
  induction l with
  | nil => intro _; exact List.Pairwise.nil
  | cons a xs ih =>
    intro h
    exact List.pairwise_cons.mpr ⟨chain_trans_head htrans h, ih h.tail⟩

theorem flatten_set_perm {α : Type} :
    ∀ (l : List (List α)) (i : Nat) (x : α) (xs : List α), l[i]? = some (x :: xs) →
      l.flatten.Perm (x :: (l.set i xs).flatten) := by
  intro l
  induction l with
  | nil => intro i x xs h; simp at h
  | cons hd tl ih =>
    intro i x xs h
    cases i with
    | zero =>
      simp only [List.getElem?_cons_zero, Option.some.injEq] at h
      subst h
      simp
    | succ n =>
      simp only [List.getElem?_cons_succ] at h
      have hp := ih n x xs h
      simp only [List.set_cons_succ, List.flatten_cons]
      exact (hp.append_left hd).trans List.perm_middle

theorem mem_flatten_idx {α : Type} {l : List (List α)} {x : α} (h : x ∈ l.flatten) :
    ∃ (i : Nat) (st : List α), l[i]? = some st ∧ x ∈ st := by
  rcases List.mem_flatten.mp h with ⟨st, hst, hx⟩
  rcases List.getElem?_of_mem hst with ⟨i, hi⟩
  exact ⟨i, st, hi, hx⟩

theorem lt_length_of_getElem? {α : Type} {l : List α} {i : Nat} {a : α}
    (h : l[i]? = some a) : i < l.length := by
  by_contra hge
  rw [List.getElem?_eq_none (Nat.le_of_not_lt hge)] at h
  simp at h

/-- One heap entry is well-formed and bounds (in the sense of `R`) every
row still buffered in the shard stream it was pulled from. -/
def heapEntryBnd (R : Int → Int → Prop) (c : Nat) (shards : List (List SqlRow))
    (d : HeapData) : Prop :=
  keyOf c d.row = d.key ∧
  ∃ st, shards[d.idx]? = some st ∧ ∀ row ∈ st, R d.key (keyOf c row)

/-- Every shard whose stream still holds rows is represented in the heap. -/
def heapCovers (shards : List (List SqlRow)) (hp : List HeapData) : Prop :=
  ∀ i st, shards[i]? = some st → st ≠ [] → ∃ d ∈ hp, d.idx = i

/-- Every buffered row carries an integer order column and every stream is
sorted by `R` on it. -/
def streamsSorted (R : Int → Int → Prop) (c : Nat)
    (shards : List (List SqlRow)) : Prop :=
  ∀ rows ∈ shards, (∀ row ∈ rows, isIntCell c row = true) ∧
    List.Pairwise (fun a b => R (keyOf c a) (keyOf c b)) rows

theorem covered_flatten_nil {shards : List (List SqlRow)}
    (hcov : heapCovers shards []) : shards.flatten = [] := by
  refine List.eq_nil_iff_forall_not_mem.mpr (fun x hx => ?_)
  rcases mem_flatten_idx hx with ⟨i, st, hi, hxst⟩
  rcases hcov i st hi (fun hnil => by subst hnil; exact (List.not_mem_nil x) hxst)
    with ⟨d, hd, _⟩
  exact (List.not_mem_nil d) hd

theorem nextIndex_cons {s : RowsState} {i : Nat} {r : SqlRow} {rs : List SqlRow}
    (hst : s.shards[i]? = some (r :: rs)) :
    nextIndex s i = (some r, { s with shards := s.shards.set i rs }) := by
  unfold nextIndex
  rw [hst]

theorem nextHeapData_cons {s : RowsState} {i : Nat} {ob : OrderBy} {r : SqlRow}
    {rs : List SqlRow} (hst : s.shards[i]? = some (r :: rs))
    (hint : isIntCell ob.column_index r = true) :
    nextHeapData s i ob =
      .ok (some ⟨i, keyOf ob.column_index r, r⟩,
        { s with shards := s.shards.set i rs }) := by
  unfold nextHeapData
  rw [nextIndex_cons hst]
  simp only [isIntCell_spec hint]

theorem nextHeapData_nilStream {s : RowsState} {i : Nat} {ob : OrderBy}
    (hst : s.shards[i]? = some []) :
    nextHeapData s i ob = .ok (none, s) := by
  unfold nextHeapData nextIndex
  rw [hst]

theorem nextHeapData_noStream {s : RowsState} {i : Nat} {ob : OrderBy}
    (hst : s.shards[i]? = none) :
    nextHeapData s i ob = .ok (none, s) := by
  unfold nextHeapData nextIndex
  rw [hst]

theorem nextWithOrder_asc (ob : OrderBy) (hasc : ob.is_asc = true) {s : RowsState}
    {hp : List HeapData} (hmin : s.min_heap = some hp) :
    nextWithOrder s ob =
      (match popMin hp with
       | some (data, rest) =>
         match nextHeapData { s with min_heap := some rest } data.idx ob with
         | .error e => .error e
         | .ok (some data2, s2) =>
           .ok (some data.row, { s2 with min_heap := some (rest ++ [data2]) })
         | .ok (none, s2) => .ok (some data.row, { s2 with min_heap := some rest })
       | none => .ok (none, { s with min_heap := some hp })) := by
  unfold nextWithOrder
  split
  · rw [hmin]
  · rename_i h
    exact absurd hasc h

theorem nextWithOrder_desc (ob : OrderBy) (hasc : ob.is_asc = false) {s : RowsState}
    {hp : List HeapData} (hmax : s.max_heap = some hp) :
    nextWithOrder s ob =
      (match popMax hp with
       | some (data, rest) =>
         match nextHeapData { s with max_heap := some rest } data.idx ob with
         | .error e => .error e
         | .ok (some data2, s2) =>
           .ok (some data.row, { s2 with max_heap := some (rest ++ [data2]) })
         | .ok (none, s2) => .ok (some data.row, { s2 with max_heap := some rest })
       | none => .ok (none, { s with max_heap := some hp })) := by
  unfold nextWithOrder
  split
  · rename_i h
    rw [hasc] at h
    simp at h
  · rw [hmax]

theorem nextWithOrder_asc_seed (ob : OrderBy) (hasc : ob.is_asc = true) {s : RowsState}
    (hmin : s.min_heap = none) {hp : List HeapData} {s1 : RowsState}
    (hseed : seedHeap ob (List.range s.shards.length) [] s = .ok (hp, s1)) :
    nextWithOrder s ob =
      (match popMin hp with
       | some (data, rest) =>
         match nextHeapData { s1 with min_heap := some rest } data.idx ob with
         | .error e => .error e
         | .ok (some data2, s2) =>
           .ok (some data.row, { s2 with min_heap := some (rest ++ [data2]) })
         | .ok (none, s2) => .ok (some data.row, { s2 with min_heap := some rest })
       | none => .ok (none, { s1 with min_heap := some hp })) := by
  unfold nextWithOrder
  split
  · rw [hmin, hseed]
  · rename_i h
    exact absurd hasc h

theorem nextWithOrder_desc_seed (ob : OrderBy) (hasc : ob.is_asc = false) {s : RowsState}
    (hmax : s.max_heap = none) {hp : List HeapData} {s1 : RowsState}
    (hseed : seedHeap ob (List.range s.shards.length) [] s = .ok (hp, s1)) :
    nextWithOrder s ob =
      (match popMax hp with
       | some (data, rest) =>
         match nextHeapData { s1 with max_heap := some rest } data.idx ob with
         | .error e => .error e
         | .ok (some data2, s2) =>
           .ok (some data.row, { s2 with max_heap := some (rest ++ [data2]) })
         | .ok (none, s2) => .ok (some data.row, { s2 with max_heap := some rest })
       | none => .ok (none, { s1 with max_heap := some hp })) := by
  unfold nextWithOrder
  split
  · rename_i h
    rw [hasc] at h
    simp at h
  · rw [hmax, hseed]

theorem nextWithOrder_asc_none (ob : OrderBy) (hasc : ob.is_asc = true) {s : RowsState}
    {hp : List HeapData} (hmin : s.min_heap = some hp) (hpop : popMin hp = none) :
    nextWithOrder s ob = .ok (none, { s with min_heap := some hp }) := by
  rw [nextWithOrder_asc ob hasc hmin, hpop]

theorem nextWithOrder_desc_none (ob : OrderBy) (hasc : ob.is_asc = false) {s : RowsState}
    {hp : List HeapData} (hmax : s.max_heap = some hp) (hpop : popMax hp = none) :
    nextWithOrder s ob = .ok (none, { s with max_heap := some hp }) := by
  rw [nextWithOrder_desc ob hasc hmax, hpop]

theorem nextWithOrder_asc_refill (ob : OrderBy) (hasc : ob.is_asc = true)
    {s : RowsState} {hp : List HeapData} {data : HeapData} {rest : List HeapData}
    {r : SqlRow} {rs : List SqlRow}
    (hmin : s.min_heap = some hp) (hpop : popMin hp = some (data, rest))
    (hst : s.shards[data.idx]? = some (r :: rs))
    (hint : isIntCell ob.column_index r = true) :
    nextWithOrder s ob =
      .ok (some data.row,
        { s with shards := s.shards.set data.idx rs,
                 min_heap := some (rest ++ [⟨data.idx, keyOf ob.column_index r, r⟩]) }) := by
  rw [nextWithOrder_asc ob hasc hmin, hpop]
  simp only [nextHeapData_cons (s := { s with min_heap := some rest }) hst hint]

theorem nextWithOrder_desc_refill (ob : OrderBy) (hasc : ob.is_asc = false)
    {s : RowsState} {hp : List HeapData} {data : HeapData} {rest : List HeapData}
    {r : SqlRow} {rs : List SqlRow}
    (hmax : s.max_heap = some hp) (hpop : popMax hp = some (data, rest))
    (hst : s.shards[data.idx]? = some (r :: rs))
    (hint : isIntCell ob.column_index r = true) :
    nextWithOrder s ob =
      .ok (some data.row,
        { s with shards := s.shards.set data.idx rs,
                 max_heap := some (rest ++ [⟨data.idx, keyOf ob.column_index r, r⟩]) }) := by
  rw [nextWithOrder_desc ob hasc hmax, hpop]
  simp only [nextHeapData_cons (s := { s with max_heap := some rest }) hst hint]

theorem nextWithOrder_asc_exhaust (ob : OrderBy) (hasc : ob.is_asc = true)
    {s : RowsState} {hp : List HeapData} {data : HeapData} {rest : List HeapData}
    (hmin : s.min_heap = some hp) (hpop : popMin hp = some (data, rest))
    (hst : s.shards[data.idx]? = some []) :
    nextWithOrder s ob = .ok (some data.row, { s with min_heap := some rest }) := by
  rw [nextWithOrder_asc ob hasc hmin, hpop]
  simp only [nextHeapData_nilStream (s := { s with min_heap := some rest }) hst]

theorem nextWithOrder_desc_exhaust (ob : OrderBy) (hasc : ob.is_asc = false)
    {s : RowsState} {hp : List HeapData} {data : HeapData} {rest : List HeapData}
    (hmax : s.max_heap = some hp) (hpop : popMax hp = some (data, rest))
    (hst : s.shards[data.idx]? = some []) :
    nextWithOrder s ob = .ok (some data.row, { s with max_heap := some rest }) := by
  rw [nextWithOrder_desc ob hasc hmax, hpop]
  simp only [nextHeapData_nilStream (s := { s with max_heap := some rest }) hst]

theorem drainOrdered_next_none {s s' : RowsState} {ob : OrderBy}
    (h : nextWithOrder s ob = .ok (none, s')) :
    drainOrdered s ob = .ok ([], s') := by
  rw [drainOrdered, h]

theorem drainOrdered_next_some {s s' : RowsState} {ob : OrderBy} {r : SqlRow}
    (h : nextWithOrder s ob = .ok (some r, s')) :
    drainOrdered s ob =
      (match drainOrdered s' ob with
       | .error e => .error e
       | .ok (out, s2) => .ok (r :: out, s2)) := by
  conv_lhs => rw [drainOrdered]
  rw [h]

theorem drainOrdered_congr {s t : RowsState} {ob : OrderBy}
    (h : nextWithOrder s ob = nextWithOrder t ob) :
    drainOrdered s ob = drainOrdered t ob := by
  conv_lhs => rw [drainOrdered]
  conv_rhs => rw [drainOrdered]
  rw [h]

theorem seedHeap_sound (R : Int → Int → Prop) (ob : OrderBy) :
    ∀ (idxs : List Nat) (heap0 : List HeapData) (s : RowsState),
      streamsSorted R ob.column_index s.shards →
      (∀ d ∈ heap0, heapEntryBnd R ob.column_index s.shards d) →
      ∃ hp s1, seedHeap ob idxs heap0 s = .ok (hp, s1) ∧
        streamsSorted R ob.column_index s1.shards ∧
        (∀ d ∈ hp, heapEntryBnd R ob.column_index s1.shards d) ∧
        (∀ d ∈ heap0, d ∈ hp) ∧
        (∀ (j : Nat) (st1 : List SqlRow), s1.shards[j]? = some st1 →
          ∃ st0 : List SqlRow, s.shards[j]? = some st0 ∧ ∀ x ∈ st1, x ∈ st0) ∧
        (∀ i ∈ idxs, ∀ st : List SqlRow, s1.shards[i]? = some st → st ≠ [] →
          ∃ d ∈ hp, d.idx = i) ∧
        (hp.map HeapData.row ++ s1.shards.flatten).Perm
          (heap0.map HeapData.row ++ s.shards.flatten) ∧
        s1.query = s.query ∧ s1.counter = s.counter ∧ s1.skipped = s.skipped ∧
        s1.min_heap = s.min_heap ∧ s1.max_heap = s.max_heap := by
  intro idxs
  induction idxs with
  | nil =>
    intro heap0 s hstr hent
    refine ⟨heap0, s, rfl, hstr, hent, fun d hd => hd,
      fun j st1 h => ⟨st1, h, fun x hx => hx⟩,
      fun i hi => absurd hi (List.not_mem_nil i),
      List.Perm.refl _, rfl, rfl, rfl, rfl, rfl⟩
  | cons i rest ih =>
    intro heap0 s hstr hent
    cases hst : s.shards[i]? with
    | none =>
      have hstep : seedHeap ob (i :: rest) heap0 s = seedHeap ob rest heap0 s := by
        simp only [seedHeap]
        rw [nextHeapData_noStream hst]
      obtain ⟨hp, s1, hrun, hstr1, hent1, hmono, hsub, hcov, hperm, hq, hcnt, hsk,
        hmn, hmx⟩ := ih heap0 s hstr hent
      refine ⟨hp, s1, hstep.trans hrun, hstr1, hent1, hmono, hsub, ?_, hperm, hq,
        hcnt, hsk, hmn, hmx⟩
      intro j hj st hst1 hne
      rcases List.mem_cons.mp hj with hj | hj
      · subst hj
        rcases hsub j st hst1 with ⟨st0, hst0, _⟩
        rw [hst] at hst0
        exact absurd hst0 (by simp)
      · exact hcov j hj st hst1 hne
    | some st0 =>
      cases st0 with
      | nil =>
        have hstep : seedHeap ob (i :: rest) heap0 s = seedHeap ob rest heap0 s := by
          simp only [seedHeap]
          rw [nextHeapData_nilStream hst]
        obtain ⟨hp, s1, hrun, hstr1, hent1, hmono, hsub, hcov, hperm, hq, hcnt, hsk,
          hmn, hmx⟩ := ih heap0 s hstr hent
        refine ⟨hp, s1, hstep.trans hrun, hstr1, hent1, hmono, hsub, ?_, hperm, hq,
          hcnt, hsk, hmn, hmx⟩
        intro j hj st hst1 hne
        rcases List.mem_cons.mp hj with hj | hj
        · subst hj
          rcases hsub j st hst1 with ⟨st0, hst0, hsubst⟩
          rw [hst] at hst0
          injection hst0 with hst0
          subst hst0
          refine absurd ?_ hne
          refine List.eq_nil_iff_forall_not_mem.mpr (fun x hx => ?_)
          exact (List.not_mem_nil x) (hsubst x hx)
        · exact hcov j hj st hst1 hne
      | cons r rs =>
        obtain ⟨hintS, hpwS⟩ := hstr _ (List.getElem?_mem hst)
        have hintr : isIntCell ob.column_index r = true :=
          hintS r (List.mem_cons_self r rs)
        have hilen : i < s.shards.length := lt_length_of_getElem? hst
        have hnd := nextHeapData_cons hst hintr
        have hstep : seedHeap ob (i :: rest) heap0 s =
            seedHeap ob rest (heap0 ++ [HeapData.mk i (keyOf ob.column_index r) r])
              { s with shards := s.shards.set i rs } := by
          simp only [seedHeap]
          rw [hnd]
        have hstr' : streamsSorted R ob.column_index
            ({ s with shards := s.shards.set i rs } : RowsState).shards := by
          intro rows hrows
          rcases List.mem_or_eq_of_mem_set hrows with hmem | hmem
          · exact hstr rows hmem
          · subst hmem
            exact ⟨fun row hrow => hintS row (List.mem_cons_of_mem r hrow),
              hpwS.of_cons⟩
        have hent' : ∀ d ∈ heap0 ++ [HeapData.mk i (keyOf ob.column_index r) r],
            heapEntryBnd R ob.column_index
              ({ s with shards := s.shards.set i rs } : RowsState).shards d := by
          intro d hd
          rcases List.mem_append.mp hd with hd | hd
          · rcases hent d hd with ⟨hkey, st, hstA, hbnd⟩
            by_cases hidx : d.idx = i
            · refine ⟨hkey, rs, ?_, ?_⟩
              · rw [hidx]
                exact List.getElem?_set_eq hilen
              · rw [hidx] at hstA
                rw [hst] at hstA
                injection hstA with hstA
                subst hstA
                exact fun row hrow => hbnd row (List.mem_cons_of_mem r hrow)
            · refine ⟨hkey, st, ?_, hbnd⟩
              rw [List.getElem?_set_ne (fun h => hidx h.symm)]
              exact hstA
          · rw [List.mem_singleton.mp hd]
            refine ⟨rfl, rs, List.getElem?_set_eq hilen, ?_⟩
            exact (List.pairwise_cons.mp hpwS).1
        obtain ⟨hp, s1, hrun, hstr1, hent1, hmono, hsub, hcov, hperm, hq, hcnt, hsk,
          hmn, hmx⟩ := ih (heap0 ++ [HeapData.mk i (keyOf ob.column_index r) r])
            { s with shards := s.shards.set i rs } hstr' hent'
        refine ⟨hp, s1, hstep.trans hrun, hstr1, hent1,
          fun d hd => hmono d (List.mem_append_left _ hd), ?_, ?_, ?_, hq, hcnt, hsk,
          hmn, hmx⟩
        · intro j st1 hst1
          rcases hsub j st1 hst1 with ⟨stM, hstM, hsubM⟩
          by_cases hj : j = i
          · subst hj
            rw [List.getElem?_set_eq hilen] at hstM
            injection hstM with hstM
            subst hstM
            exact ⟨r :: rs, hst, fun x hx => List.mem_cons_of_mem r (hsubM x hx)⟩
          · rw [List.getElem?_set_ne (fun h => hj h.symm)] at hstM
            exact ⟨stM, hstM, hsubM⟩
        · intro j hj st hst1 hne
          rcases List.mem_cons.mp hj with hj | hj
          · subst hj
            exact ⟨HeapData.mk j (keyOf ob.column_index r) r,
              hmono _ (List.mem_append_right _ (List.mem_singleton_self _)), rfl⟩
          · exact hcov j hj st hst1 hne
        · have hmid : ((heap0 ++ [HeapData.mk i (keyOf ob.column_index r) r]).map HeapData.row ++
              ({ s with shards := s.shards.set i rs } : RowsState).shards.flatten).Perm
              (heap0.map HeapData.row ++ s.shards.flatten) := by
            have hfl : s.shards.flatten.Perm (r :: (s.shards.set i rs).flatten) :=
              flatten_set_perm s.shards i r rs hst
            have he : (heap0 ++ [HeapData.mk i (keyOf ob.column_index r) r]).map HeapData.row ++
                (s.shards.set i rs).flatten
                = heap0.map HeapData.row ++ (r :: (s.shards.set i rs).flatten) := by
              simp
            rw [he]
            exact List.Perm.append_left _ hfl.symm
          exact hperm.trans hmid

theorem emitted_bnd {R : Int → Int → Prop}
    (htrans : ∀ a b c, R a b → R b c → R a c)
    {c : Nat} {shards : List (List SqlRow)} {hp : List HeapData} {k : Int}
    (hent : ∀ d ∈ hp, heapEntryBnd R c shards d)
    (hcov : heapCovers shards hp)
    (hlb : ∀ d ∈ hp, R k d.key) :
    ∀ b ∈ hp.map HeapData.row ++ shards.flatten, R k (keyOf c b) := by
  intro b hb
  rcases List.mem_append.mp hb with hb | hb
  · rcases List.mem_map.mp hb with ⟨d, hd, hdrow⟩
    have h1 := (hent d hd).1
    rw [← hdrow, h1]
    exact hlb d hd
  · rcases mem_flatten_idx hb with ⟨i, st, hi, hbst⟩
    have hne : st ≠ [] := fun h => by subst h; exact (List.not_mem_nil b) hbst
    rcases hcov i st hi hne with ⟨d, hd, hdidx⟩
    rcases hent d hd with ⟨_, st0, hst0, hbnd⟩
    rw [hdidx, hi] at hst0
    injection hst0 with hst0
    subst hst0
    exact htrans _ _ _ (hlb d hd) (hbnd b hbst)

theorem drainOrdered_sound_asc (ob : OrderBy) (hasc : ob.is_asc = true) :
    ∀ (N : Nat) (s : RowsState) (hp : List HeapData),
      s.min_heap = some hp → rowsMeasure s ≤ N →
      streamsSorted (· ≤ ·) ob.column_index s.shards →
      (∀ d ∈ hp, heapEntryBnd (· ≤ ·) ob.column_index s.shards d) →
      heapCovers s.shards hp →
      ∃ out s', drainOrdered s ob = .ok (out, s') ∧
        out.Perm (hp.map HeapData.row ++ s.shards.flatten) ∧
        List.Pairwise
          (fun a b => keyOf ob.column_index a ≤ keyOf ob.column_index b) out := by
  intro N
  induction N with
  | zero =>
    intro s hp hmin hm hstr hent hcov
    have hlen0 : hp.length = 0 := by
      have := rowsMeasure_def s
      rw [hmin, heapSize_some] at this
      omega
    have hhp : hp = [] := List.length_eq_zero.mp hlen0
    subst hhp
    have hflat : s.shards.flatten = [] := covered_flatten_nil hcov
    refine ⟨[], { s with min_heap := some [] }, ?_, by simp [hflat],
      List.Pairwise.nil⟩
    exact drainOrdered_next_none (nextWithOrder_asc_none ob hasc hmin rfl)
  | succ N ih =>
    intro s hp hmin hm hstr hent hcov
    cases hpop : popMin hp with
    | none =>
      have hhp : hp = [] := popMin_none.mp hpop
      subst hhp
      have hflat : s.shards.flatten = [] := covered_flatten_nil hcov
      refine ⟨[], { s with min_heap := some [] }, ?_, by simp [hflat],
        List.Pairwise.nil⟩
      exact drainOrdered_next_none (nextWithOrder_asc_none ob hasc hmin hpop)
    | some pr =>
      obtain ⟨data, rest⟩ := pr
      have hdin : data ∈ hp :=
        (popMin_perm hpop).symm.subset (List.mem_cons_self data rest)
      have hrest_sub : ∀ d ∈ rest, d ∈ hp :=
        fun d hd => (popMin_perm hpop).symm.subset (List.mem_cons_of_mem data hd)
      have hminLB : ∀ x ∈ hp, data.key ≤ x.key := popMin_min hpop
      rcases hent data hdin with ⟨hkeyd, stD, hstD, hbndD⟩
      cases stD with
      | nil =>
        have hnext := nextWithOrder_asc_exhaust ob hasc hmin hpop hstD
        have hmeas := nextWithOrder_some_measure hnext
        have hent2 : ∀ d ∈ rest, heapEntryBnd (· ≤ ·) ob.column_index s.shards d :=
          fun d hd => hent d (hrest_sub d hd)
        have hcov2 : heapCovers s.shards rest := by
          intro j st hj hne
          rcases hcov j st hj hne with ⟨d, hd, hdidx⟩
          rcases List.mem_cons.mp ((popMin_perm hpop).subset hd) with hd' | hd'
          · subst hd'
            rw [hdidx, hj] at hstD
            injection hstD with hstD
            exact absurd hstD hne
          · exact ⟨d, hd', hdidx⟩
        obtain ⟨out, s', hrun, hperm, hpw⟩ :=
          ih { s with min_heap := some rest } rest rfl (by omega) hstr hent2 hcov2
        refine ⟨data.row :: out, s', ?_, ?_, ?_⟩
        · rw [drainOrdered_next_some hnext, hrun]
        · have h1 : (hp.map HeapData.row ++ s.shards.flatten).Perm
              (data.row :: (rest.map HeapData.row ++ s.shards.flatten)) := by
            have := ((popMin_perm hpop).map HeapData.row).append_right
              s.shards.flatten
            simpa using this
          exact (hperm.cons data.row).trans h1.symm
        · refine List.pairwise_cons.mpr ⟨?_, hpw⟩
          intro b hb
          have hlb2 : ∀ d ∈ rest, data.key ≤ d.key :=
            fun d hd => hminLB d (hrest_sub d hd)
          have hkb := emitted_bnd (R := (· ≤ ·)) (k := data.key)
            (fun a b c h1 h2 => le_trans h1 h2)
            hent2 hcov2 hlb2 b (hperm.subset hb)
          rw [hkeyd]
          exact hkb
      | cons r rs =>
        obtain ⟨hintS, hpwS⟩ := hstr _ (List.getElem?_mem hstD)
        have hintr : isIntCell ob.column_index r = true :=
          hintS r (List.mem_cons_self r rs)
        have hilen : data.idx < s.shards.length := lt_length_of_getElem? hstD
        have hnext := nextWithOrder_asc_refill ob hasc hmin hpop hstD hintr
        have hmeas := nextWithOrder_some_measure hnext
        have hstr2 : streamsSorted (· ≤ ·) ob.column_index
            (s.shards.set data.idx rs) := by
          intro rows hrows
          rcases List.mem_or_eq_of_mem_set hrows with hmem | hmem
          · exact hstr rows hmem
          · subst hmem
            exact ⟨fun row hrow => hintS row (List.mem_cons_of_mem r hrow),
              hpwS.of_cons⟩
        have hent2 : ∀ d ∈ rest ++ [HeapData.mk data.idx (keyOf ob.column_index r) r],
            heapEntryBnd (· ≤ ·) ob.column_index (s.shards.set data.idx rs) d := by
          intro d hd
          rcases List.mem_append.mp hd with hd | hd
          · rcases hent d (hrest_sub d hd) with ⟨hkey, st, hstA, hbnd⟩
            by_cases hidx : d.idx = data.idx
            · refine ⟨hkey, rs, ?_, ?_⟩
              · rw [hidx]
                exact List.getElem?_set_eq hilen
              · rw [hidx, hstD] at hstA
                injection hstA with hstA
                subst hstA
                exact fun row hrow => hbnd row (List.mem_cons_of_mem r hrow)
            · refine ⟨hkey, st, ?_, hbnd⟩
              rw [List.getElem?_set_ne (fun h => hidx h.symm)]
              exact hstA
          · rw [List.mem_singleton.mp hd]
            exact ⟨rfl, rs, List.getElem?_set_eq hilen,
              (List.pairwise_cons.mp hpwS).1⟩
        have hcov2 : heapCovers (s.shards.set data.idx rs)
            (rest ++ [HeapData.mk data.idx (keyOf ob.column_index r) r]) := by
          intro j st hj hne
          by_cases hji : j = data.idx
          · subst hji
            exact ⟨HeapData.mk data.idx (keyOf ob.column_index r) r,
              List.mem_append_right _ (List.mem_singleton_self _), rfl⟩
          · rw [List.getElem?_set_ne (fun h => hji h.symm)] at hj
            rcases hcov j st hj hne with ⟨d, hd, hdidx⟩
            rcases List.mem_cons.mp ((popMin_perm hpop).subset hd) with hd' | hd'
            · subst hd'
              exact absurd hdidx.symm hji
            · exact ⟨d, List.mem_append_left _ hd', hdidx⟩
        obtain ⟨out, s', hrun, hperm, hpw⟩ :=
          ih { s with
               shards := s.shards.set data.idx rs,
               min_heap :=
                 some (rest ++ [HeapData.mk data.idx (keyOf ob.column_index r) r]) }
            (rest ++ [HeapData.mk data.idx (keyOf ob.column_index r) r]) rfl
            (by omega) hstr2 hent2 hcov2
        refine ⟨data.row :: out, s', ?_, ?_, ?_⟩
        · rw [drainOrdered_next_some hnext, hrun]
        · have h1 : (hp.map HeapData.row ++ s.shards.flatten).Perm
              (data.row :: (rest.map HeapData.row ++ s.shards.flatten)) := by
            have := ((popMin_perm hpop).map HeapData.row).append_right
              s.shards.flatten
            simpa using this
          have h2 : (rest.map HeapData.row ++ s.shards.flatten).Perm
              ((rest ++ [HeapData.mk data.idx (keyOf ob.column_index r) r]).map
                  HeapData.row ++
                (s.shards.set data.idx rs).flatten) := by
            have hfl : s.shards.flatten.Perm
                (r :: (s.shards.set data.idx rs).flatten) :=
              flatten_set_perm s.shards data.idx r rs hstD
            have he : (rest ++
                  [HeapData.mk data.idx (keyOf ob.column_index r) r]).map
                    HeapData.row ++
                  (s.shards.set data.idx rs).flatten
                = rest.map HeapData.row ++
                  (r :: (s.shards.set data.idx rs).flatten) := by
              simp
            rw [he]
            exact List.Perm.append_left _ hfl
          exact (hperm.cons data.row).trans ((h2.symm.cons data.row).trans h1.symm)
        · refine List.pairwise_cons.mpr ⟨?_, hpw⟩
          intro b hb
          have hlb2 : ∀ d ∈ rest ++ [HeapData.mk data.idx (keyOf ob.column_index r) r],
              data.key ≤ d.key := by
            intro d hd
            rcases List.mem_append.mp hd with hd | hd
            · exact hminLB d (hrest_sub d hd)
            · rw [List.mem_singleton.mp hd]
              exact hbndD r (List.mem_cons_self r rs)
          have hkb := emitted_bnd (R := (· ≤ ·)) (k := data.key)
            (fun a b c h1 h2 => le_trans h1 h2)
            hent2 hcov2 hlb2 b (hperm.subset hb)
          rw [hkeyd]
          exact hkb

theorem drainOrdered_sound_desc (ob : OrderBy) (hasc : ob.is_asc = false) :
    ∀ (N : Nat) (s : RowsState) (hp : List HeapData),
      s.max_heap = some hp → rowsMeasure s ≤ N →
      streamsSorted (fun a b => b ≤ a) ob.column_index s.shards →
      (∀ d ∈ hp, heapEntryBnd (fun a b => b ≤ a) ob.column_index s.shards d) →
      heapCovers s.shards hp →
      ∃ out s', drainOrdered s ob = .ok (out, s') ∧
        out.Perm (hp.map HeapData.row ++ s.shards.flatten) ∧
        List.Pairwise
          (fun a b => keyOf ob.column_index b ≤ keyOf ob.column_index a) out := by
  intro N
  induction N with
  | zero =>
    intro s hp hmax hm hstr hent hcov
    have hlen0 : hp.length = 0 := by
      have := rowsMeasure_def s
      rw [hmax, heapSize_some] at this
      omega
    have hhp : hp = [] := List.length_eq_zero.mp hlen0
    subst hhp
    have hflat : s.shards.flatten = [] := covered_flatten_nil hcov
    refine ⟨[], { s with max_heap := some [] }, ?_, by simp [hflat],
      List.Pairwise.nil⟩
    exact drainOrdered_next_none (nextWithOrder_desc_none ob hasc hmax rfl)
  | succ N ih =>
    intro s hp hmax hm hstr hent hcov
    cases hpop : popMax hp with
    | none =>
      have hhp : hp = [] := popMax_none.mp hpop
      subst hhp
      have hflat : s.shards.flatten = [] := covered_flatten_nil hcov
      refine ⟨[], { s with max_heap := some [] }, ?_, by simp [hflat],
        List.Pairwise.nil⟩
      exact drainOrdered_next_none (nextWithOrder_desc_none ob hasc hmax hpop)
    | some pr =>
      obtain ⟨data, rest⟩ := pr
      have hdin : data ∈ hp :=
        (popMax_perm hpop).symm.subset (List.mem_cons_self data rest)
      have hrest_sub : ∀ d ∈ rest, d ∈ hp :=
        fun d hd => (popMax_perm hpop).symm.subset (List.mem_cons_of_mem data hd)
      have hminLB : ∀ x ∈ hp, x.key ≤ data.key := popMax_max hpop
      rcases hent data hdin with ⟨hkeyd, stD, hstD, hbndD⟩
      cases stD with
      | nil =>
        have hnext := nextWithOrder_desc_exhaust ob hasc hmax hpop hstD
        have hmeas := nextWithOrder_some_measure hnext
        have hent2 : ∀ d ∈ rest, heapEntryBnd (fun a b => b ≤ a) ob.column_index s.shards d :=
          fun d hd => hent d (hrest_sub d hd)
        have hcov2 : heapCovers s.shards rest := by
          intro j st hj hne
          rcases hcov j st hj hne with ⟨d, hd, hdidx⟩
          rcases List.mem_cons.mp ((popMax_perm hpop).subset hd) with hd' | hd'
          · subst hd'
            rw [hdidx, hj] at hstD
            injection hstD with hstD
            exact absurd hstD hne
          · exact ⟨d, hd', hdidx⟩
        obtain ⟨out, s', hrun, hperm, hpw⟩ :=
          ih { s with max_heap := some rest } rest rfl (by omega) hstr hent2 hcov2
        refine ⟨data.row :: out, s', ?_, ?_, ?_⟩
        · rw [drainOrdered_next_some hnext, hrun]
        · have h1 : (hp.map HeapData.row ++ s.shards.flatten).Perm
              (data.row :: (rest.map HeapData.row ++ s.shards.flatten)) := by
            have := ((popMax_perm hpop).map HeapData.row).append_right
              s.shards.flatten
            simpa using this
          exact (hperm.cons data.row).trans h1.symm
        · refine List.pairwise_cons.mpr ⟨?_, hpw⟩
          intro b hb
          have hlb2 : ∀ d ∈ rest, d.key ≤ data.key :=
            fun d hd => hminLB d (hrest_sub d hd)
          have hkb := emitted_bnd (R := fun a b => b ≤ a) (k := data.key)
            (fun a b c h1 h2 => le_trans h2 h1)
            hent2 hcov2 hlb2 b (hperm.subset hb)
          rw [hkeyd]
          exact hkb
      | cons r rs =>
        obtain ⟨hintS, hpwS⟩ := hstr _ (List.getElem?_mem hstD)
        have hintr : isIntCell ob.column_index r = true :=
          hintS r (List.mem_cons_self r rs)
        have hilen : data.idx < s.shards.length := lt_length_of_getElem? hstD
        have hnext := nextWithOrder_desc_refill ob hasc hmax hpop hstD hintr
        have hmeas := nextWithOrder_some_measure hnext
        have hstr2 : streamsSorted (fun a b => b ≤ a) ob.column_index
            (s.shards.set data.idx rs) := by
          intro rows hrows
          rcases List.mem_or_eq_of_mem_set hrows with hmem | hmem
          · exact hstr rows hmem
          · subst hmem
            exact ⟨fun row hrow => hintS row (List.mem_cons_of_mem r hrow),
              hpwS.of_cons⟩
        have hent2 : ∀ d ∈ rest ++ [HeapData.mk data.idx (keyOf ob.column_index r) r],
            heapEntryBnd (fun a b => b ≤ a) ob.column_index (s.shards.set data.idx rs) d := by
          intro d hd
          rcases List.mem_append.mp hd with hd | hd
          · rcases hent d (hrest_sub d hd) with ⟨hkey, st, hstA, hbnd⟩
            by_cases hidx : d.idx = data.idx
            · refine ⟨hkey, rs, ?_, ?_⟩
              · rw [hidx]
                exact List.getElem?_set_eq hilen
              · rw [hidx, hstD] at hstA
                injection hstA with hstA
                subst hstA
                exact fun row hrow => hbnd row (List.mem_cons_of_mem r hrow)
            · refine ⟨hkey, st, ?_, hbnd⟩
              rw [List.getElem?_set_ne (fun h => hidx h.symm)]
              exact hstA
          · rw [List.mem_singleton.mp hd]
            exact ⟨rfl, rs, List.getElem?_set_eq hilen,
              (List.pairwise_cons.mp hpwS).1⟩
        have hcov2 : heapCovers (s.shards.set data.idx rs)
            (rest ++ [HeapData.mk data.idx (keyOf ob.column_index r) r]) := by
          intro j st hj hne
          by_cases hji : j = data.idx
          · subst hji
            exact ⟨HeapData.mk data.idx (keyOf ob.column_index r) r,
              List.mem_append_right _ (List.mem_singleton_self _), rfl⟩
          · rw [List.getElem?_set_ne (fun h => hji h.symm)] at hj
            rcases hcov j st hj hne with ⟨d, hd, hdidx⟩
            rcases List.mem_cons.mp ((popMax_perm hpop).subset hd) with hd' | hd'
            · subst hd'
              exact absurd hdidx.symm hji
            · exact ⟨d, List.mem_append_left _ hd', hdidx⟩
        obtain ⟨out, s', hrun, hperm, hpw⟩ :=
          ih { s with
               shards := s.shards.set data.idx rs,
               max_heap :=
                 some (rest ++ [HeapData.mk data.idx (keyOf ob.column_index r) r]) }
            (rest ++ [HeapData.mk data.idx (keyOf ob.column_index r) r]) rfl
            (by omega) hstr2 hent2 hcov2
        refine ⟨data.row :: out, s', ?_, ?_, ?_⟩
        · rw [drainOrdered_next_some hnext, hrun]
        · have h1 : (hp.map HeapData.row ++ s.shards.flatten).Perm
              (data.row :: (rest.map HeapData.row ++ s.shards.flatten)) := by
            have := ((popMax_perm hpop).map HeapData.row).append_right
              s.shards.flatten
            simpa using this
          have h2 : (rest.map HeapData.row ++ s.shards.flatten).Perm
              ((rest ++ [HeapData.mk data.idx (keyOf ob.column_index r) r]).map
                  HeapData.row ++
                (s.shards.set data.idx rs).flatten) := by
            have hfl : s.shards.flatten.Perm
                (r :: (s.shards.set data.idx rs).flatten) :=
              flatten_set_perm s.shards data.idx r rs hstD
            have he : (rest ++
                  [HeapData.mk data.idx (keyOf ob.column_index r) r]).map
                    HeapData.row ++
                  (s.shards.set data.idx rs).flatten
                = rest.map HeapData.row ++
                  (r :: (s.shards.set data.idx rs).flatten) := by
              simp
            rw [he]
            exact List.Perm.append_left _ hfl
          exact (hperm.cons data.row).trans ((h2.symm.cons data.row).trans h1.symm)
        · refine List.pairwise_cons.mpr ⟨?_, hpw⟩
          intro b hb
          have hlb2 : ∀ d ∈ rest ++ [HeapData.mk data.idx (keyOf ob.column_index r) r],
              d.key ≤ data.key := by
            intro d hd
            rcases List.mem_append.mp hd with hd | hd
            · exact hminLB d (hrest_sub d hd)
            · rw [List.mem_singleton.mp hd]
              exact hbndD r (List.mem_cons_self r rs)
          have hkb := emitted_bnd (R := fun a b => b ≤ a) (k := data.key)
            (fun a b c h1 h2 => le_trans h2 h1)
            hent2 hcov2 hlb2 b (hperm.subset hb)
          rw [hkeyd]
          exact hkb

/-- C3: For a fresh `Rows` state (both heaps unseeded) ordering by column
`ob.column_index`, where every buffered row holds an `Integer` in that
column and every per-shard stream is sorted on it in the merge's
direction, repeatedly calling `Rows::next_with_order` (lib.rs:495) until
it reports end of stream succeeds, and the emitted row sequence is a
permutation of the multiset union of the per-shard rows with sorted keys:
an ascending (min-heap) run gives `output[i].key ≤ output[i+1].key` for
every consecutive pair, a descending (max-heap) run gives
`output[i].key ≥ output[i+1].key`. -/
theorem ordered_merge_sorted_permutation (ob : OrderBy) (s : RowsState)
    (hmin : s.min_heap = none) (hmax : s.max_heap = none)
    (hint : ∀ rows ∈ s.shards, ∀ row ∈ rows, isIntCell ob.column_index row = true)
    (hsa : ob.is_asc = true → ∀ rows ∈ s.shards,
      List.Chain'
        (fun a b => keyOf ob.column_index a ≤ keyOf ob.column_index b) rows)
    (hsd : ob.is_asc = false → ∀ rows ∈ s.shards,
      List.Chain'
        (fun a b => keyOf ob.column_index b ≤ keyOf ob.column_index a) rows) :
    ∃ out s', drainOrdered s ob = .ok (out, s') ∧
      out.Perm s.shards.flatten ∧
      (ob.is_asc = true →
        List.Chain'
          (fun a b => keyOf ob.column_index a ≤ keyOf ob.column_index b) out) ∧
      (ob.is_asc = false →
        List.Chain'
          (fun a b => keyOf ob.column_index b ≤ keyOf ob.column_index a) out) := by
  cases hb : ob.is_asc with
  | false =>
    have hstr : streamsSorted (fun a b => b ≤ a) ob.column_index s.shards := by
      intro rows hrows
      exact ⟨hint rows hrows,
        chain_trans_pairwise
          (R := fun a b => keyOf ob.column_index b ≤ keyOf ob.column_index a)
          (fun a b c h1 h2 => le_trans h2 h1) (hsd hb rows hrows)⟩
    obtain ⟨hp, s1, hseed, hstr1, hent1, _, hsub1, hcov1, hperm1, _, _, _, _, _⟩ :=
      seedHeap_sound (fun a b => b ≤ a) ob (List.range s.shards.length) [] s hstr
        (fun d hd => absurd hd (List.not_mem_nil d))
    have hcovFull : heapCovers s1.shards hp := by
      intro i st hi hne
      have hrange : i ∈ List.range s.shards.length := by
        rcases hsub1 i st hi with ⟨st0, hst0, _⟩
        exact List.mem_range.mpr (lt_length_of_getElem? hst0)
      exact hcov1 i hrange st hi hne
    have heq : drainOrdered s ob = drainOrdered { s1 with max_heap := some hp } ob :=
      drainOrdered_congr ((nextWithOrder_desc_seed ob hb hmax hseed).trans
        (nextWithOrder_desc ob hb (s := { s1 with max_heap := some hp }) rfl).symm)
    obtain ⟨out, s', hrun, hperm, hpw⟩ :=
      drainOrdered_sound_desc ob hb (rowsMeasure { s1 with max_heap := some hp })
        { s1 with max_heap := some hp } hp rfl le_rfl hstr1 hent1 hcovFull
    refine ⟨out, s', heq.trans hrun, ?_, fun htrue => ?_, fun _ => hpw.chain'⟩
    · exact hperm.trans (by simpa using hperm1)
    · simp at htrue
  | true =>
    have hstr : streamsSorted (· ≤ ·) ob.column_index s.shards := by
      intro rows hrows
      exact ⟨hint rows hrows,
        chain_trans_pairwise
          (R := fun a b => keyOf ob.column_index a ≤ keyOf ob.column_index b)
          (fun a b c h1 h2 => le_trans h1 h2) (hsa hb rows hrows)⟩
    obtain ⟨hp, s1, hseed, hstr1, hent1, _, hsub1, hcov1, hperm1, _, _, _, _, _⟩ :=
      seedHeap_sound (· ≤ ·) ob (List.range s.shards.length) [] s hstr
        (fun d hd => absurd hd (List.not_mem_nil d))
    have hcovFull : heapCovers s1.shards hp := by
      intro i st hi hne
      have hrange : i ∈ List.range s.shards.length := by
        rcases hsub1 i st hi with ⟨st0, hst0, _⟩
        exact List.mem_range.mpr (lt_length_of_getElem? hst0)
      exact hcov1 i hrange st hi hne
    have heq : drainOrdered s ob = drainOrdered { s1 with min_heap := some hp } ob :=
      drainOrdered_congr ((nextWithOrder_asc_seed ob hb hmin hseed).trans
        (nextWithOrder_asc ob hb (s := { s1 with min_heap := some hp }) rfl).symm)
    obtain ⟨out, s', hrun, hperm, hpw⟩ :=
      drainOrdered_sound_asc ob hb (rowsMeasure { s1 with min_heap := some hp })
        { s1 with min_heap := some hp } hp rfl le_rfl hstr1 hent1 hcovFull
    refine ⟨out, s', heq.trans hrun, ?_, fun _ => hpw.chain', fun hfalse => ?_⟩
    · exact hperm.trans (by simpa using hperm1)
    · simp at hfalse

/-- The ordered-merge plan of the C3 witness: `ORDER BY` column `0`,
ascending. -/
def c3Ob : OrderBy := { column_index := 0, is_asc := true }

/-- A fresh two-shard `Rows` state for the C3 witness: shard `0` buffers
rows keyed `1` and `3`, shard `1` a row keyed `2`. -/
def c3State : RowsState :=
  { shards := [[[SqlValue.integer 1], [SqlValue.integer 3]], [[SqlValue.integer 2]]],
    query := { limit := none, order_by := some { column_index := 0, is_asc := true },
               aggregate := none },
    counter := 0, skipped := false, max_heap := none, min_heap := none }

/-- C3 witness: on the concrete two-shard ascending state the merge drains
to a sorted permutation of the three buffered rows. -/
theorem ordered_merge_sorted_permutation_witness :
    (∀ rows ∈ c3State.shards, ∀ row ∈ rows,
      isIntCell c3Ob.column_index row = true) ∧
    ∃ out s', drainOrdered c3State c3Ob = .ok (out, s') ∧
      out.Perm c3State.shards.flatten ∧
      (c3Ob.is_asc = true →
        List.Chain'
          (fun a b => keyOf c3Ob.column_index a ≤ keyOf c3Ob.column_index b) out) ∧
      (c3Ob.is_asc = false →
        List.Chain'
          (fun a b => keyOf c3Ob.column_index b ≤ keyOf c3Ob.column_index a) out) :=
  ⟨by decide, ordered_merge_sorted_permutation c3Ob c3State rfl rfl (by decide)
    (fun _ => by simp [c3State, c3Ob, keyOf]) (fun h => absurd h (by decide))⟩

end Shardingite
